import Mathlib

/-!
Verification of the content-resolution pipeline of the Pure-Content server
(`server.js`): URL/entity normalization, size-constraint stripping, the
display-resource quality selector, the extraction strategies, the browser
automation fallback and the media muxer.  All string-processing functions are
shallowly embedded over `List Char`, mirroring the JavaScript source
(`String.prototype.replace` with a global regex is modelled as a left-to-right
scan that, at each position, either rewrites a match and resumes after it, or
copies one character and advances).  Recursions that are not structural in the
string are implemented with an explicit fuel argument (so that everything
computes in the kernel); one character of input is consumed per step, so a fuel
equal to the input length is always sufficient, which the `_congr` lemmas
below make precise.
-/

set_option maxHeartbeats 1000000

/-- Strings are modelled as lists of characters. -/
abbrev Str := List Char

namespace PureContent

/-- One global-regex rewriting pass, as JavaScript `String.replace(re, r)` with
the `g` flag behaves for the patterns used in `server.js`: at each position the
matcher `m` either recognises a match on the remaining input — returning the
replacement text and how many characters of the tail (beyond the head
character) the match consumed — or the head character is copied verbatim and
scanning advances one position. -/
def scanReplaceF (m : Str → Option (Str × Nat)) : Nat → Str → Str
  | 0, s => s
  | _ + 1, [] => []
  | f + 1, c :: s =>
    match m (c :: s) with
    | some (r, k) => r ++ scanReplaceF m f (s.drop k)
    | none => c :: scanReplaceF m f s

/-- The rewriting pass at its canonical fuel (the input length, which is
always sufficient since every step consumes at least one character). -/
def scanReplace (m : Str → Option (Str × Nat)) (s : Str) : Str :=
  scanReplaceF m s.length s

/-- Case-insensitive character comparison, as regex `i` flag on ASCII. -/
def ciEq (a b : Char) : Bool := a.toLower = b.toLower

/-- Case-insensitive prefix test. -/
def ciPrefix : Str → Str → Bool
  | [], _ => true
  | _ :: _, [] => false
  | a :: p, b :: s => ciEq a b && ciPrefix p s

/-- Matcher for a case-insensitive literal pattern `p` rewritten to `r`
(JavaScript `.replace(/p/gi, r)`). -/
def ciLit (p r : Str) : Str → Option (Str × Nat) := fun s =>
  if ciPrefix p s then some (r, p.length - 1) else none

/-- Matcher for a case-sensitive literal pattern `p` rewritten to `r`
(JavaScript `.replace(/p/g, r)`). -/
def csLit (p r : Str) : Str → Option (Str × Nat) := fun s =>
  if p.isPrefixOf s then some (r, p.length - 1) else none

/-- The entity replacements of `decodeUrlEntities` (server.js:441-450), in
source order; all are case-insensitive (`gi` flag). -/
def urlEntityPairs : List (Str × Str) :=
  [("&amp;".toList, "&".toList),
   ("&lt;".toList, "<".toList),
   ("&gt;".toList, ">".toList),
   ("&quot;".toList, "\"".toList),
   ("&#x27;".toList, "'".toList),
   ("&#x2F;".toList, "/".toList),
   ("&#x3D;".toList, "=".toList),
   ("&#39;".toList, "'".toList),
   ("&#x2F;".toList, "/".toList)]

/-- One full decode pass of `decodeUrlEntities`: the chained `.replace` calls
of server.js:441-450. -/
def urlPass (s : Str) : Str :=
  urlEntityPairs.foldl (fun acc pr => scanReplace (ciLit pr.1 pr.2) acc) s

/-- The fixed-point loop of `decodeUrlEntities` (server.js:439-451): decode
passes are iterated until the string no longer changes.  Since a non-fixed
pass strictly shortens the string, a fuel exceeding the length is always
enough for the loop to reach its fixed point. -/
def decodeLoopF : Nat → Str → Str
  | 0, s => s
  | f + 1, s => if urlPass s = s then s else decodeLoopF f (urlPass s)

/-- The decode loop at its canonical (always sufficient) fuel. -/
def decodeLoop (s : Str) : Str := decodeLoopF (s.length + 1) s

/-- `decodeUrlEntities` (server.js:432-453): returns falsy input unchanged,
otherwise iterates full decode passes to a fixed point. -/
def decodeUrlEntities (s : Str) : Str :=
  if s = [] then s else decodeLoop s

/-! ### cleanUrl (server.js:993-1004) -/

/-- JavaScript `String.prototype.split` on a single-character separator:
`"a&b".split('&') = ["a","b"]`, `"".split('&') = [""]`. -/
def jsSplit (sep : Char) : Str → List Str
  | [] => [[]]
  | c :: t =>
    if c = sep then [] :: jsSplit sep t
    else
      match jsSplit sep t with
      | h :: r => (c :: h) :: r
      | [] => [[c]]

/-- The parameter filter of `cleanUrl` (server.js:1000): keep a parameter
unless its text starts with `bytestart` or `byteend`. -/
def keepParam (p : Str) : Bool :=
  !("bytestart".toList.isPrefixOf p || "byteend".toList.isPrefixOf p)

/-- `cleanUrl` (server.js:993-1004): falsy input is returned as-is; the URL is
split on `'?'` and only the first two pieces are kept by the destructuring
`const [baseUrl, queryString] = url.split('?')`; a missing or empty query
string returns the input unchanged; otherwise the query is split on `'&'`,
the byte-range parameters are filtered out, and the rest re-joined. -/
def cleanUrl (u : Str) : Str :=
  if u = [] then u
  else
    match jsSplit '?' u with
    | [_] => u
    | baseUrl :: queryString :: _ =>
      if queryString = [] then u
      else baseUrl ++ '?' :: List.intercalate ['&'] ((jsSplit '&' queryString).filter keepParam)
    | [] => u

/-- First segment of a string before a given character (the claim's "base
URL" before the single `?`). -/
def takeUntil (c : Char) : Str → Str
  | [] => []
  | a :: t => if a = c then [] else a :: takeUntil c t

/-- Rest of a string from the first occurrence of a given character on. -/
def dropUntil (c : Char) : Str → Str
  | [] => []
  | a :: t => if a = c then a :: t else dropUntil c t

/-- The behaviour C10 claims for `cleanUrl`, stated from the claim's words:
for a URL with at most one `'?'`, remove exactly the query parameters whose
text starts with `bytestart` or `byteend`, preserving all the others in their
original order; a URL without `'?'` (and a null/empty input) is returned
as-is. -/
def cleanUrlClaim (u : Str) : Str :=
  match dropUntil '?' u with
  | [] => u
  | _ :: q =>
    takeUntil '?' u ++ '?' :: List.intercalate ['&'] ((jsSplit '&' q).filter keepParam)

/-! ### decodeHtmlEntities (server.js:456-519) -/

/-- Hexadecimal digit value, matching the `[0-9a-f]` class under the regex
`i` flag. -/
def hexDigitVal (c : Char) : Option Nat :=
  if '0' ≤ c ∧ c ≤ '9' then some (c.toNat - '0'.toNat)
  else if 'a' ≤ c ∧ c ≤ 'f' then some (c.toNat - 'a'.toNat + 10)
  else if 'A' ≤ c ∧ c ≤ 'F' then some (c.toNat - 'A'.toNat + 10)
  else none

/-- Decimal digit value, matching `\d`. -/
def decDigitVal (c : Char) : Option Nat :=
  if '0' ≤ c ∧ c ≤ '9' then some (c.toNat - '0'.toNat) else none

/-- `String.fromCodePoint(n)`, falling back to `String.fromCharCode(n)` (which
truncates to 16 bits) when the code point is out of range, as in the numeric
entity decoders of server.js:464-510.  Lean `Char` cannot represent the lone
UTF-16 surrogates JavaScript strings allow; `Char.ofNat` maps those to `'\0'`. -/
def jsCodePointChar (n : Nat) : Str :=
  if n ≤ 0x10FFFF then [Char.ofNat n] else [Char.ofNat (n % 65536)]

/-- Matcher for a numeric entity pattern: a literal prefix (case-sensitive or
not), one or more digits of the given kind, and a closing `';'`, replaced by
the denoted code point. -/
def numEntity (pre : Str) (ci : Bool) (digit : Char → Option Nat) (base : Nat) :
    Str → Option (Str × Nat) := fun s =>
  if (if ci then ciPrefix pre s else pre.isPrefixOf s) then
    let rest := s.drop pre.length
    let ds := rest.takeWhile (fun c => (digit c).isSome)
    if ds = [] then none
    else
      match rest.drop ds.length with
      | ';' :: _ =>
        some (jsCodePointChar (ds.foldl (fun a c => a * base + (digit c).getD 0) 0),
          pre.length + ds.length)
      | _ => none
  else none

/-- `decodeHtmlEntities` (server.js:456-519): first the double-encoded numeric
and named entities, then the plain named and numeric entities, then the
backslash escapes, each as one global-replace pass, in source order. -/
def decodeHtmlEntities (s : Str) : Str :=
  if s = [] then []
  else
    s
    |> scanReplace (numEntity "&amp;#x".toList true hexDigitVal 16)
    |> scanReplace (numEntity "&amp;#".toList false decDigitVal 10)
    |> scanReplace (csLit "&amp;quot;".toList "\"".toList)
    |> scanReplace (csLit "&amp;apos;".toList "'".toList)
    |> scanReplace (csLit "&amp;lt;".toList "<".toList)
    |> scanReplace (csLit "&amp;gt;".toList ">".toList)
    |> scanReplace (csLit "&quot;".toList "\"".toList)
    |> scanReplace (csLit "&amp;".toList "&".toList)
    |> scanReplace (csLit "&lt;".toList "<".toList)
    |> scanReplace (csLit "&gt;".toList ">".toList)
    |> scanReplace (csLit "&apos;".toList "'".toList)
    |> scanReplace (numEntity "&#".toList false decDigitVal 10)
    |> scanReplace (numEntity "&#x".toList true hexDigitVal 16)
    |> scanReplace (csLit "\\n".toList "\n".toList)
    |> scanReplace (csLit "\\r".toList "\r".toList)
    |> scanReplace (csLit "\\t".toList "\t".toList)
    |> scanReplace (csLit "\\\"".toList "\"".toList)
    |> scanReplace (csLit "\\\\".toList "\\".toList)

/-! ### Size-constraint stripping (server.js:234-248, 567-579, 624-636,
697-709, 766-778) -/

/-- Query / ampersand separator characters. -/
def isQA (c : Char) : Bool := c = '?' || c = '&'

/-- Removal of one CDN query parameter, JavaScript
`.replace(/[?&]KEY=[^&]*/g, '')`: at a `?` or `&` followed by `KEY=`, the
match extends through the value up to (not including) the next `&`; scanning
resumes there. -/
def removeParamF (key : Str) : Nat → Str → Str
  | 0, s => s
  | _ + 1, [] => []
  | f + 1, c :: s =>
    if isQA c && (key ++ ['=']).isPrefixOf s then
      removeParamF key f ((s.drop (key.length + 1)).dropWhile (fun d => !(d = '&')))
    else c :: removeParamF key f s

def removeParam (key : Str) (s : Str) : Str := removeParamF key s.length s

/-- The ten CDN parameter keys stripped from image URLs, in source order. -/
def paramKeys : List Str :=
  ["stp".toList, "_nc_cat".toList, "ccb".toList, "_nc_sid".toList, "efg".toList,
   "_nc_ohc".toList, "_nc_oc".toList, "_nc_zt".toList, "_nc_ht".toList, "_nc_gid".toList]

def removeParams (s : Str) : Str := paramKeys.foldl (fun acc k => removeParam k acc) s

def isDigitC (c : Char) : Bool := '0' ≤ c ∧ c ≤ '9'

def isLowerC (c : Char) : Bool := 'a' ≤ c ∧ c ≤ 'z'

/-- The deterministic matcher for the path-segment pattern
`s\d+x\d+[a-z]?_[a-z]+-jpg` (entered right after the leading `/`), as a state
machine consuming one character per step; the regex is deterministic here
because every repetition is followed by a character its class excludes.
States: 0 expects `s`; 1/2 the first digit run (then `x`); 3/4 the second
digit run (ending at `_`, or at one lowercase letter then `_` via state 5);
6/7 the `[a-z]+` run (then `-`); 8/9/10 the literal `jpg`; success returns
the rest of the input. -/
def mcState : Nat → Str → Option Str
  | _, [] => none
  | 0, c :: t => if c = 's' then mcState 1 t else none
  | 1, c :: t => if isDigitC c then mcState 2 t else none
  | 2, c :: t => if isDigitC c then mcState 2 t else if c = 'x' then mcState 3 t else none
  | 3, c :: t => if isDigitC c then mcState 4 t else none
  | 4, c :: t =>
    if isDigitC c then mcState 4 t
    else if c = '_' then mcState 6 t
    else if isLowerC c then mcState 5 t
    else none
  | 5, c :: t => if c = '_' then mcState 6 t else none
  | 6, c :: t => if isLowerC c then mcState 7 t else none
  | 7, c :: t => if isLowerC c then mcState 7 t else if c = '-' then mcState 8 t else none
  | 8, c :: t => if c = 'j' then mcState 9 t else none
  | 9, c :: t => if c = 'p' then mcState 10 t else none
  | 10, c :: t => if c = 'g' then some t else none
  | _ + 11, _ :: _ => none

/-- The matcher entry point, right after the leading `/`. -/
def sFam : Str → Option Str := mcState 0

/-- Does the path-segment pattern match at the head of the string? -/
def matchPathAt (x : Str) : Bool :=
  match x with
  | '/' :: t => (sFam t).isSome
  | _ => false

/-- Removal of the size path segment, JavaScript
`.replace(/\/s\d+x\d+[a-z]?_[a-z]+-jpg[^?&]*/g, '')`: after the core pattern
the match extends through `[^?&]*`; scanning resumes at the following `?`/`&`
(or the end). -/
def removePathF : Nat → Str → Str
  | 0, s => s
  | _ + 1, [] => []
  | f + 1, c :: s =>
    if c = '/' then
      match sFam s with
      | some rest => removePathF f (rest.dropWhile (fun d => !isQA d))
      | none => c :: removePathF f s
    else c :: removePathF f s

def removePath (s : Str) : Str := removePathF s.length s

/-- Tail of the separator-collapsing pass, JavaScript
`.replace(/[?&]+/g, (m, offset) => offset === 0 ? '?' : '&')` at offsets
beyond 0: every run of `?`/`&` becomes a single `&`. -/
def collapseTailF : Nat → Str → Str
  | 0, s => s
  | _ + 1, [] => []
  | f + 1, c :: s =>
    if isQA c then '&' :: collapseTailF f (s.dropWhile isQA)
    else c :: collapseTailF f s

def collapseTail (s : Str) : Str := collapseTailF s.length s

/-- The full separator-collapsing pass: a run starting at offset 0 becomes
`'?'`, every later run becomes `'&'`. -/
def collapseQA : Str → Str
  | [] => []
  | c :: s =>
    if isQA c then '?' :: collapseTail (s.dropWhile isQA)
    else c :: collapseTail s

/-- JavaScript `.replace(/\?$/, '')`: drop a single trailing `'?'`. -/
def dropTrailingQ (s : Str) : Str :=
  match s.reverse with
  | c :: t => if c = '?' then t.reverse else s
  | [] => s

/-- `stripSizeConstraints`: the image-URL cleanup chain duplicated at
server.js:234-248, 567-579, 624-636, 697-709 and 766-778 — the ten CDN
parameter removals in source order, the size path-segment removal, the
separator collapse, and the trailing-`?` removal. -/
def stripSizeConstraints (s : Str) : Str :=
  dropTrailingQ (collapseQA (removePath (removeParams s)))

/-! ### Media records -/

inductive MediaType where
  | image
  | video
deriving DecidableEq

/-- The record assembled by every extraction strategy (`mediaUrl`,
`thumbnailUrl`, `caption`, `author`, `mediaType`, `timestamp`).  The
timestamp is kept as epoch seconds; the ISO formatting done by `Date` in the
source is an external library call. -/
structure MediaRecord where
  mediaUrl : Str
  thumbnailUrl : Str
  caption : Str
  author : Str
  mediaType : MediaType
  timestamp : Option Int
deriving DecidableEq

/-! ### The media muxer `mergeVideoAudio` (server.js:1024-1084) -/

/-- The temp directory (`path.join(__dirname, 'temp')`); the directory prefix
itself plays no role in the model. -/
def tempDir : Str := "temp".toList

/-- The environment a muxer invocation runs against: the (deterministic) hash
function, the state of the filesystem at entry, and which of the external
steps succeed. -/
structure MuxEnv where
  hashFn : Str → Str
  fileExists : Str → Bool
  downloadOk : Str → Bool
  ffmpegOk : Bool
  ffmpegPartial : Bool
deriving Inhabited

/-- `TEMP_DIR/<md5(instagramUrl)>_video.mp4` (server.js:1029). -/
def videoTempPath (env : MuxEnv) (instagramUrl : Str) : Str :=
  tempDir ++ '/' :: (env.hashFn instagramUrl ++ "_video.mp4".toList)

/-- `TEMP_DIR/<md5(instagramUrl)>_audio.mp4` (server.js:1030). -/
def audioTempPath (env : MuxEnv) (instagramUrl : Str) : Str :=
  tempDir ++ '/' :: (env.hashFn instagramUrl ++ "_audio.mp4".toList)

/-- `TEMP_DIR/<md5(instagramUrl)>_merged.mp4` (server.js:1031): the cache path
is derived from the hash of the original post URL only. -/
def mergedPath (env : MuxEnv) (instagramUrl : Str) : Str :=
  tempDir ++ '/' :: (env.hashFn instagramUrl ++ "_merged.mp4".toList)

def addFile (fs : Str → Bool) (p : Str) : Str → Bool := fun q => if q = p then true else fs q

def delFile (fs : Str → Bool) (p : Str) : Str → Bool := fun q => if q = p then false else fs q

/-- Observable outcome of one muxer invocation: the settled value (`some` an
output path on resolve, `none` on reject), the download attempts issued, the
files unlinked, and the final filesystem. -/
structure MuxRun where
  result : Option Str
  downloads : List Str
  deleted : List Str
  fsFinal : Str → Bool

/-- `mergeVideoAudio` (server.js:1024-1084).  If the cache-keyed output file
already exists it is resolved immediately with no downloads.  Otherwise the
video and then the audio stream are downloaded (a successful download creates
the temp file; a failed one rejects at once — the `catch` at server.js:1080
performs no cleanup).  The ffmpeg step either succeeds (the two inputs are
unlinked, the output resolved, server.js:1056-1066) or errors (whichever of
the video/audio/output files exist are unlinked, then the error is
surfaced, server.js:1067-1078). -/
def mergeVideoAudio (env : MuxEnv) (videoUrl audioUrl instagramUrl : Str) : MuxRun :=
  let vp := videoTempPath env instagramUrl
  let ap := audioTempPath env instagramUrl
  let op := mergedPath env instagramUrl
  if env.fileExists op then
    { result := some op, downloads := [], deleted := [], fsFinal := env.fileExists }
  else if !env.downloadOk videoUrl then
    { result := none, downloads := [videoUrl], deleted := [], fsFinal := env.fileExists }
  else
    let fs1 := addFile env.fileExists vp
    if !env.downloadOk audioUrl then
      { result := none, downloads := [videoUrl, audioUrl], deleted := [], fsFinal := fs1 }
    else
      let fs2 := addFile fs1 ap
      if env.ffmpegOk then
        { result := some op, downloads := [videoUrl, audioUrl], deleted := [vp, ap],
          fsFinal := addFile (delFile (delFile fs2 vp) ap) op }
      else
        let fs3 := if env.ffmpegPartial then addFile fs2 op else fs2
        { result := none, downloads := [videoUrl, audioUrl],
          deleted := [vp, ap] ++ (if env.ffmpegPartial then [op] else []),
          fsFinal := delFile (delFile (delFile fs3 vp) ap) op }

/-! ### The browser automation fallback `extractWithPuppeteer`
(server.js:798-990) -/

/-- JavaScript `String.prototype.includes`. -/
def containsSub (p : Str) : Str → Bool
  | [] => p.isEmpty
  | c :: t => p.isPrefixOf (c :: t) || containsSub p t

/-- The fixed video quality priority tokens, best to worst
(server.js:919). -/
def qualityTokens : List Str :=
  ["q90".toList, "q80".toList, "q70".toList, "q60".toList, "q50".toList, "q40".toList]

/-- Video variant selection (server.js:919-933): the first captured URL
containing the highest-priority token present in any URL, else the first
captured URL. -/
def selectBestVideo (urls : List Str) : Str :=
  match qualityTokens.findSome? (fun q => urls.find? (fun u => containsSub q u)) with
  | some u => u
  | none => urls.headD []

/-- `path.basename`. -/
def basename (p : Str) : Str := (p.reverse.takeWhile (fun c => !(c = '/'))).reverse

/-- The configured externally-reachable base location (`BASE_URL`). -/
def baseUrlStr : Str := "http://localhost:3000".toList

/-- `${BASE_URL}/temp/${path.basename(mergedVideoPath)}` (server.js:945). -/
def serverUrl (p : Str) : Str := baseUrlStr ++ "/temp/".toList ++ basename p

/-- Caption post-processing of the fallback (server.js:950):
`.replace(/\\n/g, '\n').replace(/\\"/g, '"')` then `decodeHtmlEntities`. -/
def pupCaption (raw : Str) : Str :=
  decodeHtmlEntities
    (scanReplace (csLit "\\\"".toList "\"".toList)
      (scanReplace (csLit "\\n".toList "\n".toList) raw))

/-- Environment of one browser-fallback invocation: which steps preceding the
browser close succeed, the media responses captured during page load, the
raw caption/author scanned in-page, and the environment of the optional merge
step. -/
structure PupEnv where
  launchOk : Bool
  pageOk : Bool
  navOk : Bool
  metaOk : Bool
  videoUrls : List Str
  audioUrls : List Str
  thumbnail : Option Str
  rawCaption : Str
  rawAuthor : Str
  mux : MuxEnv

/-- Observable outcome of one fallback invocation: `result = some v` models a
normal return of `v` (`v = none` is JavaScript `return null`), `result = none`
a propagated exception; `launched`/`browserClosed` record whether a browser
session was started and whether it had been closed by the time the function
exited. -/
structure PupRun where
  result : Option (Option MediaRecord)
  launched : Bool
  browserClosed : Bool

/-- The video-only record the fallback returns when there is no audio track
or when the merge fails (server.js:959-966, 971-978). -/
def videoOnlyRecord (env : PupEnv) (cleanVideo : Str) : MediaRecord :=
  { mediaUrl := cleanVideo
    thumbnailUrl := env.thumbnail.getD []
    caption := pupCaption env.rawCaption
    author := env.rawAuthor
    mediaType := .video
    timestamp := none }

/-- `extractWithPuppeteer` (server.js:798-990).  A failed launch propagates
with no session; a failure of any step before the close at server.js:912
(page setup, navigation, metadata evaluation) is caught at server.js:984-988,
which closes the session and re-throws.  After the close: no captured video
URL returns `null`; otherwise the best video URL is selected and cleaned;
with no audio a video-only record is returned; with audio the muxer runs, its
resolved path is served from the temp route, and a mux failure degrades to
the video-only record (server.js:955-967). -/
def extractWithPuppeteer (env : PupEnv) (url : Str) : PupRun :=
  if !env.launchOk then { result := none, launched := false, browserClosed := false }
  else if !env.pageOk then { result := none, launched := true, browserClosed := true }
  else if !env.navOk then { result := none, launched := true, browserClosed := true }
  else if !env.metaOk then { result := none, launched := true, browserClosed := true }
  else if env.videoUrls.isEmpty then { result := some none, launched := true, browserClosed := true }
  else
    let cleanVideo := cleanUrl (selectBestVideo env.videoUrls)
    if env.audioUrls.isEmpty then
      { result := some (some (videoOnlyRecord env cleanVideo)), launched := true,
        browserClosed := true }
    else
      let cleanAudio := cleanUrl (env.audioUrls.headD [])
      let mrun := mergeVideoAudio env.mux cleanVideo cleanAudio url
      match mrun.result with
      | some outPath =>
        { result := some (some { mediaUrl := serverUrl outPath
                                 thumbnailUrl := env.thumbnail.getD []
                                 caption := pupCaption env.rawCaption
                                 author := env.rawAuthor
                                 mediaType := .video
                                 timestamp := none })
          launched := true, browserClosed := true }
      | none =>
        { result := some (some (videoOnlyRecord env cleanVideo)), launched := true,
          browserClosed := true }

/-! ### The orchestrator's fallback trigger (server.js:343-356) -/

/-- `url.includes('/reel/') || url.includes('/tv/')` (server.js:344). -/
def hasVideoUrlMarker (url : Str) : Bool :=
  containsSub "/reel/".toList url || containsSub "/tv/".toList url

/-- Method 5 of the pipeline (server.js:343-356): when the post URL carries a
time-based-video marker and the textual result is image-typed, the browser
fallback is invoked (second component of the result records the invocation);
a returned record that has a non-empty `mediaUrl` and is video-typed fully
replaces the textual result; any other outcome (including a thrown error,
caught at server.js:353-355) leaves the textual result in place. -/
def applyPuppeteerOverride (url : Str) (postData : Option MediaRecord)
    (pupOutcome : Option (Option MediaRecord)) : Option MediaRecord × Bool :=
  if hasVideoUrlMarker url &&
      (match postData with | some r => r.mediaType = MediaType.image | none => false) then
    match pupOutcome with
    | some (some p) =>
      if p.mediaUrl ≠ [] ∧ p.mediaType = MediaType.video then (some p, true)
      else (postData, true)
    | _ => (postData, true)
  else (postData, false)

/-! ### Concrete environments used by witnesses and counterexamples -/

def muxHash0 : Str → Str := fun _ => "cafe".toList

def urlReel0 : Str := "https://www.instagram.com/reel/abc/".toList

def vidUrl0 : Str := "https://cdn.example/v/t2/q90video.mp4?bytestart=0&k=1".toList

def audUrl0 : Str := "https://cdn.example/a/t16/audio.mp4".toList

/-- A filesystem where the muxer's cache-keyed output file already exists. -/
def muxEnvCached : MuxEnv :=
  { hashFn := muxHash0
    fileExists := fun p => p = "temp/cafe_merged.mp4".toList
    downloadOk := fun _ => true
    ffmpegOk := true
    ffmpegPartial := false }

/-- An environment where the video download succeeds and the audio download
fails. -/
def muxEnvAudioFail : MuxEnv :=
  { hashFn := muxHash0
    fileExists := fun _ => false
    downloadOk := fun u => !(u = cleanUrl audUrl0)
    ffmpegOk := true
    ffmpegPartial := false }

/-- An environment where both downloads succeed and the ffmpeg merge
errors. -/
def muxEnvFfmpegFail : MuxEnv :=
  { hashFn := muxHash0
    fileExists := fun _ => false
    downloadOk := fun _ => true
    ffmpegOk := false
    ffmpegPartial := false }

/-- A fallback environment that captures one video and one audio stream and
whose merge step fails. -/
def pupEnvMergeFail : PupEnv :=
  { launchOk := true, pageOk := true, navOk := true, metaOk := true
    videoUrls := [vidUrl0]
    audioUrls := [audUrl0]
    thumbnail := none
    rawCaption := "c".toList
    rawAuthor := "a".toList
    mux := muxEnvFfmpegFail }

def recImage0 : MediaRecord :=
  { mediaUrl := "https://cdn.example/img.jpg".toList, thumbnailUrl := [], caption := []
    author := "u".toList, mediaType := MediaType.image, timestamp := none }

def recVideo0 : MediaRecord :=
  { mediaUrl := "https://cdn.example/clip.mp4".toList, thumbnailUrl := [], caption := []
    author := "u".toList, mediaType := MediaType.video, timestamp := none }

/-! ### Display resources and the quality selector (server.js:535-558,
667-689 and the regex variant at 143-201) -/

/-- One entry of a `display_resources` array.  JavaScript tests
`resource.src && resource.config_width && resource.config_height` by
truthiness, which conflates a missing dimension with an explicit `0` and a
missing `src` with `""`; the model uses `0`/`[]` for both. -/
structure DisplayResource where
  src : Str
  config_width : Nat
  config_height : Nat
deriving DecidableEq

/-- The area (`resolution`) of a candidate: `config_width * config_height`. -/
def area (r : DisplayResource) : Nat := r.config_width * r.config_height

/-- The selection loop of server.js:537-548 (identical at 668-679 and, over
regex captures, at 160-172): walk the candidates keeping the first one whose
resolution strictly exceeds the running maximum (which starts at `0`),
skipping any candidate with a falsy `src`, `config_width` or
`config_height`. -/
def scanBest : List DisplayResource → Nat → Option DisplayResource → Option DisplayResource
  | [], _, best => best
  | r :: rs, maxRes, best =>
    if r.src ≠ [] ∧ r.config_width ≠ 0 ∧ r.config_height ≠ 0 then
      if maxRes < r.config_width * r.config_height then
        scanBest rs (r.config_width * r.config_height) (some r)
      else scanBest rs maxRes best
    else scanBest rs maxRes best

/-- The full selection over a candidate set (server.js:535-558): the winner of
the scan if any, else the last candidate's `src` (the "last URL is typically
the highest quality" fallback) when it is truthy, else nothing. -/
def displayResourcesPick (rs : List DisplayResource) : Option Str :=
  if rs.isEmpty then none
  else
    match scanBest rs 0 none with
    | some r => some r.src
    | none =>
      match rs.getLast? with
      | some last => if last.src ≠ [] then some last.src else none
      | none => none

/-- The maximum area over a candidate set (with `0` for the empty set). -/
def maxArea (rs : List DisplayResource) : Nat := (rs.map area).foldr max 0

/-- What C1 claims the selector returns: the first candidate in input order
whose area equals the maximum area (missing dimensions counting as area 0). -/
def claimPick (rs : List DisplayResource) : Option Str :=
  (rs.find? (fun r => area r = maxArea rs)).map DisplayResource.src

/-! ### JSON values and `extractFromRequireData` (server.js:522-613) -/

/-- Parsed JSON values (`JSON.parse` itself is a platform builtin, external to
the repository; its output is modelled directly). -/
inductive Json where
  | null
  | jbool (b : Bool)
  | jnum (n : Int)
  | jstr (s : Str)
  | jarr (xs : List Json)
  | jobj (fields : List (Str × Json))

/-- Property lookup on a parsed object. -/
def getField (fields : List (Str × Json)) (k : Str) : Option Json :=
  (fields.find? (fun f => f.1 = k)).map (fun f => f.2)

/-- JavaScript truthiness of a JSON value. -/
def truthy : Json → Bool
  | .null => false
  | .jbool b => b
  | .jnum n => !(n = 0)
  | .jstr s => !s.isEmpty
  | .jarr _ => true
  | .jobj _ => true

/-- Truthiness with `undefined` (a missing property) falsy. -/
def truthyO : Option Json → Bool
  | some j => truthy j
  | none => false

/-- JavaScript value-level `a || b`. -/
def jsOr (a b : Option Json) : Option Json := if truthyO a then a else b

/-- First truthy value of a `||` chain. -/
def firstTruthy (l : List (Option Json)) : Option Json :=
  match l.find? (fun o => truthyO o) with
  | some o => o
  | none => none

/-- Projection to a string.  A truthy non-string in a URL position would make
the JavaScript `.replace` chain throw into the surrounding catch; the model
projects such values to the falsy `[]`. -/
def asStr : Option Json → Str
  | some (.jstr s) => s
  | _ => []

/-- Projection to a dimension count (`config_width`/`config_height`);
non-numbers and negatives are projected to the falsy `0`. -/
def asNat : Option Json → Nat
  | some (.jnum n) => n.toNat
  | _ => 0

/-- A `display_resources` element as a candidate. -/
def resOf (el : Json) : DisplayResource :=
  match el with
  | .jobj fs =>
    { src := asStr (getField fs "src".toList)
      config_width := asNat (getField fs "config_width".toList)
      config_height := asNat (getField fs "config_height".toList) }
  | _ => { src := [], config_width := 0, config_height := 0 }

/-- `obj.edge_media_to_caption?.edges?.[0]?.node?.text` style navigation. -/
def getObjField (j : Option Json) (k : Str) : Option Json :=
  match j with
  | some (.jobj fs) => getField fs k
  | _ => none

/-- `?.[0]` on an array value. -/
def getIdx0 : Option Json → Option Json
  | some (.jarr (x :: _)) => some x
  | _ => none

/-- The caption chain of server.js:582-584. -/
def captionOf (fs : List (Str × Json)) : Str :=
  asStr (firstTruthy
    [getObjField (getIdx0 (getObjField (getField fs "edge_media_to_caption".toList)
        "edges".toList)) "node".toList |>.bind (fun n => getObjField (some n) "text".toList)
      |> id,
     getObjField (getField fs "caption".toList) "text".toList,
     getField fs "accessibility_caption".toList])

/-- The author chain of server.js:590. -/
def authorOf (fs : List (Str × Json)) : Str :=
  match firstTruthy
      [getObjField (getField fs "owner".toList) "username".toList,
       getObjField (getField fs "user".toList) "username".toList] with
  | some v => asStr (some v)
  | none => "Unknown".toList

/-- `obj.taken_at_timestamp ? … : null` (server.js:592); the epoch value is
kept, the ISO formatting being an external `Date` call. -/
def tsOf (fs : List (Str × Json)) : Option Int :=
  match getField fs "taken_at_timestamp".toList with
  | some (.jnum n) => if n = 0 then none else some n
  | _ => none

/-- The record built at a matched node (server.js:528-593): media and
thumbnail URLs (upgraded through the quality selector over
`display_resources` for non-video nodes), entity decoding, size-constraint
stripping for image URLs, and the companion fields. -/
def buildRecord (fs : List (Str × Json)) : MediaRecord :=
  let videoU := getField fs "video_url".toList
  let displayU := getField fs "display_url".toList
  let mediaUrl0 := jsOr videoU displayU
  let thumb0 := jsOr displayU (jsOr (getField fs "thumbnail_src".toList) videoU)
  let dres := getField fs "display_resources".toList
  let upgraded : Option Json × Option Json :=
    if !truthyO videoU then
      match dres with
      | some (.jarr els) =>
        if !els.isEmpty then
          match scanBest (els.map resOf) 0 none with
          | some best => (some (Json.jstr best.src), some (Json.jstr best.src))
          | none =>
            match els.getLast? with
            | some lastEl =>
              if !(resOf lastEl).src.isEmpty then
                (some (Json.jstr (resOf lastEl).src), some (Json.jstr (resOf lastEl).src))
              else (mediaUrl0, thumb0)
            | none => (mediaUrl0, thumb0)
        else (mediaUrl0, thumb0)
      | _ => (mediaUrl0, thumb0)
    else (mediaUrl0, thumb0)
  let mediaUrlS : Option Str :=
    match upgraded.1 with
    | some (.jstr s) =>
      let d := decodeUrlEntities s
      if !truthyO videoU && !d.isEmpty then some (stripSizeConstraints d) else some d
    | _ => none
  let thumbS : Option Str :=
    match upgraded.2 with
    | some (.jstr s) => some (decodeUrlEntities s)
    | _ => none
  { mediaUrl := mediaUrlS.getD []
    thumbnailUrl := thumbS.getD []
    caption := decodeHtmlEntities (captionOf fs)
    author := authorOf fs
    mediaType :=
      if truthyO videoU || truthyO (getField fs "is_video".toList) then MediaType.video
      else MediaType.image
    timestamp := tsOf fs }

/-- `findMediaData` (server.js:525-606) with its depth bound of 10 turned
into fuel (`depth > 10` returns null, so eleven levels are processed): an
object carrying a truthy `video_url`, `display_url` or `display_resources`
yields a record; otherwise objects and arrays are searched recursively in
property/index order, first hit winning. -/
def findMediaDataF : Nat → Json → Option MediaRecord
  | 0, _ => none
  | f + 1, j =>
    match j with
    | .jobj fs =>
      if truthyO (getField fs "video_url".toList) ||
          truthyO (getField fs "display_url".toList) ||
          truthyO (getField fs "display_resources".toList) then
        some (buildRecord fs)
      else (fs.map (fun p => p.2)).findSome? (findMediaDataF f)
    | .jarr xs => xs.findSome? (findMediaDataF f)
    | _ => none

/-- `extractFromRequireData` (server.js:522-613): the depth-bounded recursive
search started at depth 0. -/
def extractFromRequireData (j : Json) : Option MediaRecord := findMediaDataF 11 j

/-! ### The embedded-script JSON scan, method 2 (server.js:272-300) -/

/-- `postData?.mediaUrl` truthiness. -/
def recordHasUrl : Option MediaRecord → Bool
  | some r => !r.mediaUrl.isEmpty
  | none => false

/-- The candidate loop of server.js:282-293 over the parse outcomes of the
brace-balanced fragments found in a script tag: a fragment that fails
`JSON.parse` (`none`) is skipped by its `catch`; a parsed fragment overwrites
`postData` with `extractFromRequireData`'s result and the loop stops at the
first record with a truthy `mediaUrl`. -/
def scanCandidates (acc : Option MediaRecord) : List (Option Json) → Option MediaRecord
  | [] => acc
  | none :: rest => scanCandidates acc rest
  | some j :: rest =>
    let pd := extractFromRequireData j
    if recordHasUrl pd then pd else scanCandidates pd rest

def jsonMalformedDemoUrl : Str := "https://cdn.example/clip2.mp4".toList

/-- A well-formed candidate carrying a `video_url` field. -/
def jsonDemoCandidate : Json :=
  Json.jobj [("video_url".toList, Json.jstr jsonMalformedDemoUrl)]

/-- The record `extractFromRequireData` produces for `jsonDemoCandidate`. -/
def jsonDemoRecord : MediaRecord :=
  { mediaUrl := jsonMalformedDemoUrl
    thumbnailUrl := jsonMalformedDemoUrl
    caption := []
    author := "Unknown".toList
    mediaType := MediaType.video
    timestamp := none }

def resNoDimA : DisplayResource := { src := "a".toList, config_width := 0, config_height := 0 }

def resNoDimB : DisplayResource := { src := "b".toList, config_width := 0, config_height := 0 }

def resTieA : DisplayResource := { src := "a".toList, config_width := 2, config_height := 3 }

def resTieB : DisplayResource := { src := "b".toList, config_width := 3, config_height := 2 }

def resTieC : DisplayResource := { src := "c".toList, config_width := 1, config_height := 1 }

/-! ### Method 1, the inline-field scan (server.js:125-269) -/

/-- First match of a regex `PREFIX([^"]+)"`: scan for the literal prefix; the
capture is the non-empty run up to the next `'"'`, which must exist; on any
failure the scan advances one position. -/
def firstCapture (pat : Str) : Str → Option Str
  | [] => none
  | c :: t =>
    if pat.isPrefixOf (c :: t) then
      let after := (c :: t).drop pat.length
      let cap := after.takeWhile (fun d => !(d = '"'))
      if !cap.isEmpty && !(after.drop cap.length).isEmpty then some cap
      else firstCapture pat t
    else firstCapture pat t

def vPat1 : Str := "\"video_url\":\"".toList

def vPat2 : Str := "\"playback_url\":\"".toList

def vPat3 : Str := "\"video_versions\":[\x7b\"url\":\"".toList

def dPat : Str := "\"display_url\":\"".toList

def tPat : Str := "\"thumbnail_src\":\"".toList

def capPat : Str := "\"edge_media_to_caption\":\x7b\"edges\":[\x7b\"node\":\x7b\"text\":\"".toList

def ownerPat1 : Str := "\"owner\":\x7b\"id\":\"".toList

def ownerPat2 : Str := "\",\"username\":\"".toList

/-- First match of `/"owner":\{"id":"[^"]+","username":"([^"]+)"/`
(server.js:219). -/
def ownerCapture : Str → Option Str
  | [] => none
  | c :: t =>
    if ownerPat1.isPrefixOf (c :: t) then
      let a1 := (c :: t).drop ownerPat1.length
      let idRun := a1.takeWhile (fun d => !(d = '"'))
      if !idRun.isEmpty && ownerPat2.isPrefixOf (a1.drop idRun.length) then
        let a2 := (a1.drop idRun.length).drop ownerPat2.length
        let cap := a2.takeWhile (fun d => !(d = '"'))
        if !cap.isEmpty && !(a2.drop cap.length).isEmpty then some cap
        else ownerCapture t
      else ownerCapture t
    else ownerCapture t

def tsPat : Str := "\"taken_at_timestamp\":".toList

def digitsVal (ds : Str) : Nat := ds.foldl (fun acc c => acc * 10 + (c.toNat - '0'.toNat)) 0

/-- First match of `/"taken_at_timestamp":(\d+)/` (server.js:220), as the
captured epoch value. -/
def tsCapture : Str → Option Nat
  | [] => none
  | c :: t =>
    if tsPat.isPrefixOf (c :: t) then
      let a := (c :: t).drop tsPat.length
      let ds := a.takeWhile isDigitC
      if !ds.isEmpty then some (digitsVal ds) else tsCapture t
    else tsCapture t

/-- The three raw-JSON unescapes applied to a matched media URL
(server.js:223): `& → &`, `\/ → /`, `= → =`. -/
def unescape3 (s : Str) : Str :=
  scanReplace (csLit "\\u003d".toList "=".toList)
    (scanReplace (csLit "\\/".toList "/".toList)
      (scanReplace (csLit "\\u0026".toList "&".toList) s))

/-- The two unescapes applied to the thumbnail URL (server.js:252). -/
def unescape2 (s : Str) : Str :=
  scanReplace (csLit "\\/".toList "/".toList)
    (scanReplace (csLit "\\u0026".toList "&".toList) s)

/-- JavaScript truthiness of the optional high-quality image URL. -/
def hqTruthy : Option Str → Bool
  | some h => !h.isEmpty
  | none => false

/-- Method 1 (server.js:216-269): the inline-field scan over the raw HTML.
`hq` is the high-quality image URL recovered from the `display_resources`
regex scan of server.js:143-214 (that scan is the regex-capture variant of
`displayResourcesPick`), passed in here as the strategy's second input.  The
video field (in its three pattern variants) takes priority for `mediaUrl`;
the high-quality image and the size stripping apply only when no video
pattern matched; caption, author and timestamp are extracted independently
and their absence does not block the record. -/
def method1 (hq : Option Str) (html : Str) : Option MediaRecord :=
  let videoUrlMatch :=
    match firstCapture vPat1 html with
    | some v => some v
    | none =>
      match firstCapture vPat2 html with
      | some v => some v
      | none => firstCapture vPat3 html
  let displayUrlMatch := firstCapture dPat html
  let thumbnailMatch := firstCapture tPat html
  if videoUrlMatch.isSome || displayUrlMatch.isSome then
    let raw := match videoUrlMatch with | some v => v | none => displayUrlMatch.getD []
    let m0 := decodeUrlEntities (unescape3 raw)
    let m1 :=
      if videoUrlMatch.isNone && hqTruthy hq then decodeUrlEntities (hq.getD []) else m0
    let m2 := if videoUrlMatch.isNone && !m1.isEmpty then stripSizeConstraints m1 else m1
    let thumbRaw :=
      match displayUrlMatch with
      | some d => d
      | none => match thumbnailMatch with | some u => u | none => m2
    let thumb := decodeUrlEntities (unescape2 thumbRaw)
    if !m2.isEmpty then
      some { mediaUrl := m2
             thumbnailUrl := thumb
             caption := decodeHtmlEntities ((firstCapture capPat html).getD [])
             author := (ownerCapture html).getD "Unknown".toList
             mediaType := if videoUrlMatch.isSome then MediaType.video else MediaType.image
             timestamp := (tsCapture html).map Int.ofNat }
    else none
  else none

def htmlVidDemo : Str :=
  ("x\"video_url\":\"https:\\/\\/cdn.example\\/v.mp4\"," ++
    "\"display_url\":\"https:\\/\\/cdn.example\\/d.jpg\"y").toList

def vCapDemo : Str := "https:\\/\\/cdn.example\\/v.mp4".toList

def dCapDemo : Str := "https:\\/\\/cdn.example\\/d.jpg".toList

def htmlImgDemo : Str := "x\"display_url\":\"https:\\/\\/cdn.example\\/d.jpg\"y".toList

/-! ### Idempotence of `stripSizeConstraints` (C3): predicates -/

/-- Occurrence of a `[?&]KEY=` pattern anywhere in the string. -/
def hasParam (key : Str) : Str → Bool
  | [] => false
  | c :: s => (isQA c && (key ++ ['=']).isPrefixOf s) || hasParam key s

/-- Occurrence of the size path-segment core pattern anywhere. -/
def hasPathCore : Str → Bool
  | [] => false
  | c :: s => matchPathAt (c :: s) || hasPathCore s

/-- No `'?'` anywhere. -/
def noQ : Str → Bool
  | [] => true
  | c :: t => !(c = '?') && noQ t

/-- No two adjacent separator characters. -/
def noAdjQA : Str → Bool
  | a :: b :: t => !(isQA a && isQA b) && noAdjQA (b :: t)
  | _ => true

/-- The separator discipline of a collapsed URL: no `'&'` at the head, no
`'?'` past the head, and no adjacent separators. -/
def goodSeps : Str → Bool
  | [] => true
  | c :: t => !(c = '&') && noQ t && noAdjQA (c :: t)

/-! ## Theorems -/

/-- Any two sufficient fuels give the same scan result. -/
theorem scanReplaceF_congr (m : Str → Option (Str × Nat)) :
    ∀ {f₁ f₂ : Nat} {s : Str}, s.length ≤ f₁ → s.length ≤ f₂ →
      scanReplaceF m f₁ s = scanReplaceF m f₂ s := by
  intro f₁
  induction f₁ with
  | zero =>
    intro f₂ s h1 _
    have hs : s = [] := by cases s <;> simp_all
    subst hs
    cases f₂ <;> rfl
  | succ f ih =>
    intro f₂ s h1 h2
    cases s with
    | nil => cases f₂ <;> rfl
    | cons c s =>
      cases f₂ with
      | zero => simp at h2
      | succ f₂ =>
        simp only [List.length_cons, Nat.add_le_add_iff_right] at h1 h2
        simp only [scanReplaceF]
        cases hm : m (c :: s) with
        | some rk =>
          have hdrop : (s.drop rk.2).length ≤ s.length := by
            simp [List.length_drop]
          exact congrArg (rk.1 ++ ·) (ih (le_trans hdrop h1) (le_trans hdrop h2))
        | none =>
          exact congrArg (c :: ·) (ih h1 h2)

theorem scanReplace_nil (m : Str → Option (Str × Nat)) : scanReplace m [] = [] := rfl

/-- Unfolding lemma for `scanReplace` on a nonempty string. -/
theorem scanReplace_cons (m : Str → Option (Str × Nat)) (c : Char) (s : Str) :
    scanReplace m (c :: s) =
      match m (c :: s) with
      | some (r, k) => r ++ scanReplace m (s.drop k)
      | none => c :: scanReplace m s := by
  unfold scanReplace
  simp only [List.length_cons, scanReplaceF]
  cases hm : m (c :: s) with
  | some rk =>
    exact congrArg (rk.1 ++ ·)
      (scanReplaceF_congr m (by simp [List.length_drop]) (le_refl _))
  | none => rfl

/-- A single `scanReplace` never lengthens the string when every replacement
is at most as long as what it consumes. -/
theorem scanReplaceF_length_le (m : Str → Option (Str × Nat))
    (hm : ∀ s r k, m s = some (r, k) → r.length ≤ k + 1 ∧ k ≤ s.length - 1) :
    ∀ f s, (scanReplaceF m f s).length ≤ s.length := by
  intro f
  induction f with
  | zero => intro s; simp [scanReplaceF]
  | succ f ih =>
    intro s
    cases s with
    | nil => simp [scanReplaceF]
    | cons c s =>
      simp only [scanReplaceF]
      cases hm2 : m (c :: s) with
      | some rk =>
        obtain ⟨h1, h2⟩ := hm _ _ _ hm2
        simp only [List.length_cons, Nat.add_sub_cancel] at h2
        have hrec := ih (s.drop rk.2)
        have hd : (s.drop rk.2).length = s.length - rk.2 := List.length_drop rk.2 s
        simp only [List.length_append, List.length_cons]
        omega
      | none =>
        have hrec := ih s
        simp only [List.length_cons]
        omega

/-- A single `scanReplace` either leaves the string unchanged or strictly
shortens it, when every replacement is strictly shorter than what it
consumes. -/
theorem scanReplaceF_eq_or_lt (m : Str → Option (Str × Nat))
    (hm : ∀ s r k, m s = some (r, k) → r.length ≤ k ∧ k ≤ s.length - 1) :
    ∀ f s, scanReplaceF m f s = s ∨ (scanReplaceF m f s).length < s.length := by
  have hm' : ∀ s r k, m s = some (r, k) → r.length ≤ k + 1 ∧ k ≤ s.length - 1 := by
    intro s r k h
    exact ⟨Nat.le_succ_of_le (hm s r k h).1, (hm s r k h).2⟩
  intro f
  induction f with
  | zero => intro s; left; rfl
  | succ f ih =>
    intro s
    cases s with
    | nil => left; rfl
    | cons c s =>
      simp only [scanReplaceF]
      cases hm2 : m (c :: s) with
      | some rk =>
        right
        obtain ⟨h1, h2⟩ := hm _ _ _ hm2
        simp only [List.length_cons, Nat.add_sub_cancel] at h2
        have hlen := scanReplaceF_length_le m hm' f (s.drop rk.2)
        have hd : (s.drop rk.2).length = s.length - rk.2 := List.length_drop rk.2 s
        simp only [List.length_append, List.length_cons]
        omega
      | none =>
        rcases ih s with h | h
        · left; rw [h]
        · right; simpa using h

theorem scanReplace_eq_or_lt (m : Str → Option (Str × Nat))
    (hm : ∀ s r k, m s = some (r, k) → r.length ≤ k ∧ k ≤ s.length - 1) (s : Str) :
    scanReplace m s = s ∨ (scanReplace m s).length < s.length :=
  scanReplaceF_eq_or_lt m hm s.length s

/-- `ciLit` replacements for the URL entity pairs satisfy the strict-shrink
property. -/
theorem ciLit_shrink (p r : Str) (hp : 2 ≤ p.length) (hr : r.length ≤ p.length - 1) :
    ∀ s q k, ciLit p r s = some (q, k) → q.length ≤ k ∧ k ≤ s.length - 1 := by
  intro s q k h
  unfold ciLit at h
  split at h
  · next hpre =>
    cases h
    constructor
    · omega
    · have : p.length ≤ s.length := by
        clear hr hp
        induction p generalizing s with
        | nil => simp
        | cons a p ih =>
          cases s with
          | nil => simp [ciPrefix] at hpre
          | cons b s =>
            simp only [ciPrefix, Bool.and_eq_true] at hpre
            have := ih s hpre.2
            simpa using this
      omega
  · exact absurd h (by simp)

/-- Each pair in `urlEntityPairs` has a pattern of length ≥ 2 and a
replacement of length 1. -/
theorem urlEntityPairs_ok :
    ∀ pr ∈ urlEntityPairs, 2 ≤ pr.1.length ∧ pr.2.length ≤ pr.1.length - 1 := by
  decide

/-- One decode pass either fixes the string or strictly shortens it. -/
theorem urlPass_eq_or_lt (s : Str) : urlPass s = s ∨ (urlPass s).length < s.length := by
  unfold urlPass
  have main : ∀ (l : List (Str × Str)),
      (∀ pr ∈ l, 2 ≤ pr.1.length ∧ pr.2.length ≤ pr.1.length - 1) →
      ∀ s : Str, l.foldl (fun acc pr => scanReplace (ciLit pr.1 pr.2) acc) s = s ∨
        (l.foldl (fun acc pr => scanReplace (ciLit pr.1 pr.2) acc) s).length < s.length := by
    intro l hl
    induction l with
    | nil => intro s; left; rfl
    | cons pr l ih =>
      intro s
      simp only [List.foldl_cons]
      have hpr := hl pr (by simp)
      have hstep := scanReplace_eq_or_lt (ciLit pr.1 pr.2)
        (ciLit_shrink pr.1 pr.2 hpr.1 hpr.2) s
      have hrest := ih (fun q hq => hl q (by simp [hq])) (scanReplace (ciLit pr.1 pr.2) s)
      rcases hstep with he | hlt
      · rw [he] at hrest ⊢
        exact hrest
      · rcases hrest with he2 | hlt2
        · rw [he2]; right; exact hlt
        · right; omega
  exact main urlEntityPairs urlEntityPairs_ok s

/-- With fuel exceeding the string length, the loop output is a fixed point
of the decode pass. -/
theorem decodeLoopF_fix : ∀ f s, s.length < f → urlPass (decodeLoopF f s) = decodeLoopF f s := by
  intro f
  induction f with
  | zero => intro s h; omega
  | succ f ih =>
    intro s h
    simp only [decodeLoopF]
    by_cases hfix : urlPass s = s
    · simp [hfix]
    · simp only [if_neg hfix]
      rcases urlPass_eq_or_lt s with he | hlt
      · exact absurd he hfix
      · exact ih (urlPass s) (by omega)

/-- The output of the decode loop is a fixed point of a decode pass. -/
theorem urlPass_decodeLoop (s : Str) : urlPass (decodeLoop s) = decodeLoop s :=
  decodeLoopF_fix (s.length + 1) s (Nat.lt_succ_self _)

/-- The loop is the identity on fixed points of the decode pass. -/
theorem decodeLoop_fixed {t : Str} (h : urlPass t = t) : decodeLoop t = t := by
  show decodeLoopF (t.length + 1) t = t
  rw [decodeLoopF]
  simp [h]

/-- Running the loop on a loop output returns it unchanged. -/
theorem decodeLoop_idem (s : Str) : decodeLoop (decodeLoop s) = decodeLoop s :=
  decodeLoop_fixed (urlPass_decodeLoop s)

example : decodeUrlEntities "a&amp;amp;b".toList = "a&b".toList := by decide

example : decodeUrlEntities "x&AMP;quot;y".toList = "x\"y".toList := by decide

/-- C2: the entity decoder that iterates full decode passes to a fixed point
(`decodeUrlEntities`) is idempotent: a second application changes nothing. -/
theorem decodeUrlEntities_idempotent (s : Str) :
    decodeUrlEntities (decodeUrlEntities s) = decodeUrlEntities s := by
  unfold decodeUrlEntities
  by_cases h : s = []
  · simp [h]
  · simp only [if_neg h]
    by_cases h2 : decodeLoop s = []
    · simp [h2]
    · simp [h2, decodeLoop_idem]

theorem jsSplit_of_not_mem {sep : Char} {u : Str} (h : sep ∉ u) : jsSplit sep u = [u] := by
  induction u with
  | nil => rfl
  | cons c t ih =>
    simp only [List.mem_cons, not_or] at h
    have hc : ¬ c = sep := fun he => h.1 he.symm
    simp only [jsSplit, if_neg hc, ih h.2]

theorem jsSplit_append {sep : Char} {b q : Str} (hb : sep ∉ b) (hq : sep ∉ q) :
    jsSplit sep (b ++ sep :: q) = [b, q] := by
  induction b with
  | nil => simp [jsSplit, jsSplit_of_not_mem hq]
  | cons c t ih =>
    simp only [List.mem_cons, not_or] at hb
    have hc : ¬ c = sep := fun he => hb.1 he.symm
    simp only [List.cons_append, jsSplit, if_neg hc, List.append_eq]
    rw [ih hb.2]

theorem takeUntil_append {b q : Str} (hb : '?' ∉ b) :
    takeUntil '?' (b ++ '?' :: q) = b := by
  induction b with
  | nil => simp [takeUntil]
  | cons c t ih =>
    simp only [List.mem_cons, not_or] at hb
    have hc : ¬ c = '?' := fun he => hb.1 he.symm
    simp only [List.cons_append, takeUntil, if_neg hc, List.append_eq, ih hb.2]

theorem dropUntil_append {b q : Str} (hb : '?' ∉ b) :
    dropUntil '?' (b ++ '?' :: q) = '?' :: q := by
  induction b with
  | nil => simp [dropUntil]
  | cons c t ih =>
    simp only [List.mem_cons, not_or] at hb
    have hc : ¬ c = '?' := fun he => hb.1 he.symm
    simp only [List.cons_append, dropUntil, if_neg hc, List.append_eq, ih hb.2]

theorem dropUntil_of_not_mem {u : Str} (h : '?' ∉ u) : dropUntil '?' u = [] := by
  induction u with
  | nil => rfl
  | cons c t ih =>
    simp only [List.mem_cons, not_or] at h
    have hc : ¬ c = '?' := fun he => h.1 he.symm
    simp only [dropUntil, if_neg hc, ih h.2]

example : cleanUrl "a.mp4?bytestart=0&x=1&byteend=99&y=2".toList = "a.mp4?x=1&y=2".toList := by
  decide

example : cleanUrl "a.mp4".toList = "a.mp4".toList := by decide

/-- C10: for every URL containing at most one `'?'`, `cleanUrl` removes
exactly the query parameters whose text starts with `bytestart` or `byteend`,
preserving all other parameters in their original order; a URL containing no
`'?'` is returned unchanged, and an empty input is returned as-is. -/
theorem cleanUrl_correct (u : Str) (h : u.count '?' ≤ 1) : cleanUrl u = cleanUrlClaim u := by
  by_cases hmem : '?' ∈ u
  · obtain ⟨b, q, rfl⟩ := List.append_of_mem hmem
    have hcnt : b.count '?' + (q.count '?' + 1) ≤ 1 := by
      simpa [List.count_append, List.count_cons] using h
    have hb : '?' ∉ b := by
      have hz : b.count '?' = 0 := by omega
      simpa [List.count_eq_zero] using hz
    have hq : '?' ∉ q := by
      have hz : q.count '?' = 0 := by omega
      simpa [List.count_eq_zero] using hz
    have hsplit := jsSplit_append hb hq
    unfold cleanUrl cleanUrlClaim
    rw [dropUntil_append hb, takeUntil_append hb, if_neg (by simp), hsplit]
    by_cases hqe : q = []
    · subst hqe
      simp [jsSplit, keepParam, List.intercalate]
    · simp [hqe]
  · unfold cleanUrl cleanUrlClaim
    rw [jsSplit_of_not_mem hmem, dropUntil_of_not_mem hmem]
    by_cases hu : u = [] <;> simp [hu]

/-- Witness for C10 at a concrete URL with byte-range parameters. -/
theorem cleanUrl_correct_witness :
    ("v.mp4?bytestart=0&x=1&byteend=7".toList.count '?' ≤ 1) ∧
      cleanUrl "v.mp4?bytestart=0&x=1&byteend=7".toList =
        cleanUrlClaim "v.mp4?bytestart=0&x=1&byteend=7".toList :=
  ⟨by decide, cleanUrl_correct _ (by decide)⟩

example : decodeHtmlEntities "&amp;#x48;i &quot;x&quot;".toList = "Hi \"x\"".toList := by
  decide

example :
    stripSizeConstraints "h/p/s640x640_a-jpg/img.jpg?stp=dst-jpg&_nc_cat=1&oe=AF".toList =
      "h/p&oe=AF".toList := by
  decide

example : stripSizeConstraints "h/img.jpg?x=1&y=2".toList = "h/img.jpg&x=1&y=2".toList := by
  decide

/-! ### Theorems for the muxer, the fallback and the orchestrator trigger -/

/-- C4: for every source URL whose muxer output file already exists at the
cache path derived from the hash of the original post URL (a path independent
of the resolved stream URLs), invoking the muxer resolves that existing path
immediately and performs no downloads. -/
theorem mergeVideoAudio_cache_hit (env : MuxEnv) (v a u : Str)
    (h : env.fileExists (mergedPath env u) = true) :
    (mergeVideoAudio env v a u).result = some (mergedPath env u) ∧
      (mergeVideoAudio env v a u).downloads = [] := by
  unfold mergeVideoAudio
  simp [h]

/-- Witness for C4: a pre-seeded output file is returned with no download
attempts, whatever the stream URLs are. -/
theorem mergeVideoAudio_cache_hit_witness :
    muxEnvCached.fileExists (mergedPath muxEnvCached urlReel0) = true ∧
      ((mergeVideoAudio muxEnvCached vidUrl0 audUrl0 urlReel0).result =
          some (mergedPath muxEnvCached urlReel0) ∧
        (mergeVideoAudio muxEnvCached vidUrl0 audUrl0 urlReel0).downloads = []) :=
  ⟨by decide, mergeVideoAudio_cache_hit muxEnvCached vidUrl0 audUrl0 urlReel0 (by decide)⟩

/-- Counterexample to C6 as stated: on a download failure the muxer rejects
without deleting anything, although the already-downloaded video temp file
exists — the deletion happens only in the ffmpeg error callback
(server.js:1067-1078), not in the surrounding catch (server.js:1080-1082). -/
theorem mergeVideoAudio_download_fail_no_cleanup :
    (mergeVideoAudio muxEnvAudioFail (cleanUrl vidUrl0) (cleanUrl audUrl0) urlReel0).result =
        none ∧
      (mergeVideoAudio muxEnvAudioFail (cleanUrl vidUrl0) (cleanUrl audUrl0) urlReel0).fsFinal
          (videoTempPath muxEnvAudioFail urlReel0) = true ∧
      (mergeVideoAudio muxEnvAudioFail (cleanUrl vidUrl0) (cleanUrl audUrl0) urlReel0).deleted =
        [] := by
  decide

/-- C6 (amended): when the remux step fails, the muxer deletes whichever of
the video, audio and output temp files exist and surfaces the failure; a
download failure surfaces the failure without deleting temp files — and in
either case the browser fallback degrades to a video-only record whose
`mediaUrl` is the selected cleaned video URL instead of failing the whole
request. -/
theorem mux_failure_handling :
    (∀ (env : MuxEnv) (v a u : Str),
      env.fileExists (mergedPath env u) = false →
      env.downloadOk v = true → env.downloadOk a = true → env.ffmpegOk = false →
      (mergeVideoAudio env v a u).result = none ∧
        (mergeVideoAudio env v a u).deleted =
          [videoTempPath env u, audioTempPath env u] ++
            (if env.ffmpegPartial then [mergedPath env u] else [])) ∧
    (∀ (env : PupEnv) (url : Str),
      env.launchOk = true → env.pageOk = true → env.navOk = true → env.metaOk = true →
      env.videoUrls.isEmpty = false → env.audioUrls.isEmpty = false →
      (mergeVideoAudio env.mux (cleanUrl (selectBestVideo env.videoUrls))
          (cleanUrl (env.audioUrls.headD [])) url).result = none →
      (extractWithPuppeteer env url).result =
          some (some (videoOnlyRecord env (cleanUrl (selectBestVideo env.videoUrls)))) ∧
        (videoOnlyRecord env (cleanUrl (selectBestVideo env.videoUrls))).mediaType =
          MediaType.video ∧
        (videoOnlyRecord env (cleanUrl (selectBestVideo env.videoUrls))).mediaUrl =
          cleanUrl (selectBestVideo env.videoUrls)) := by
  constructor
  · intro env v a u hfe hv ha hff
    unfold mergeVideoAudio
    simp [hfe, hv, ha, hff]
  · intro env url hl hp hn hm hv ha hmux
    unfold extractWithPuppeteer
    rw [hl, hp, hn, hm, hv, ha]
    simp only [Bool.not_true, Bool.false_eq_true, if_false]
    rw [hmux]
    exact ⟨rfl, rfl, rfl⟩

/-- Witness for the amended C6 at a concrete failing-merge environment. -/
theorem mux_failure_handling_witness :
    ((mergeVideoAudio muxEnvFfmpegFail vidUrl0 audUrl0 urlReel0).result = none ∧
      (mergeVideoAudio muxEnvFfmpegFail vidUrl0 audUrl0 urlReel0).deleted =
        [videoTempPath muxEnvFfmpegFail urlReel0, audioTempPath muxEnvFfmpegFail urlReel0] ++
          (if muxEnvFfmpegFail.ffmpegPartial then [mergedPath muxEnvFfmpegFail urlReel0]
            else [])) ∧
    ((extractWithPuppeteer pupEnvMergeFail urlReel0).result =
        some (some (videoOnlyRecord pupEnvMergeFail
          (cleanUrl (selectBestVideo pupEnvMergeFail.videoUrls)))) ∧
      (videoOnlyRecord pupEnvMergeFail
        (cleanUrl (selectBestVideo pupEnvMergeFail.videoUrls))).mediaType = MediaType.video ∧
      (videoOnlyRecord pupEnvMergeFail
        (cleanUrl (selectBestVideo pupEnvMergeFail.videoUrls))).mediaUrl =
        cleanUrl (selectBestVideo pupEnvMergeFail.videoUrls)) :=
  ⟨mux_failure_handling.1 muxEnvFfmpegFail vidUrl0 audUrl0 urlReel0 (by decide) (by decide)
      (by decide) (by decide),
    mux_failure_handling.2 pupEnvMergeFail urlReel0 rfl rfl rfl rfl (by decide) (by decide)
      (by decide)⟩

/-- C9: the browser session state at exit equals the launch state on every
path of the fallback — a launched session is always closed by the time the
function returns or propagates its error, and no close happens when the
launch itself failed. -/
theorem extractWithPuppeteer_session_closed (env : PupEnv) (url : Str) :
    (extractWithPuppeteer env url).browserClosed = (extractWithPuppeteer env url).launched := by
  unfold extractWithPuppeteer
  repeat' first
    | rfl
    | split
    | dsimp only

/-- C5: when the post URL carries a time-based-video marker and the textual
result is image-typed, the browser fallback is invoked; if it returns a
video-typed record with a non-empty `mediaUrl`, that record fully replaces
the textual result (so the final `mediaType` is video). -/
theorem puppeteerOverride_forces_video (url : Str) (r : MediaRecord)
    (outcome : Option (Option MediaRecord))
    (hmark : hasVideoUrlMarker url = true) (hr : r.mediaType = MediaType.image) :
    (applyPuppeteerOverride url (some r) outcome).2 = true ∧
      ∀ p : MediaRecord, outcome = some (some p) → p.mediaUrl ≠ [] →
        p.mediaType = MediaType.video →
        (applyPuppeteerOverride url (some r) outcome).1 = some p := by
  unfold applyPuppeteerOverride
  rw [hmark]
  simp only [hr]
  rw [if_pos (by simp)]
  constructor
  · cases outcome with
    | none => rfl
    | some o =>
      cases o with
      | none => rfl
      | some p =>
        by_cases hc : p.mediaUrl ≠ [] ∧ p.mediaType = MediaType.video <;> simp [hc]
  · intro p hp hurl htype
    subst hp
    simp [hurl, htype]

/-- Witness for C5 at a concrete reel URL, image-typed textual result and
video-typed fallback result. -/
theorem puppeteerOverride_forces_video_witness :
    (applyPuppeteerOverride urlReel0 (some recImage0) (some (some recVideo0))).2 = true ∧
      (applyPuppeteerOverride urlReel0 (some recImage0) (some (some recVideo0))).1 =
        some recVideo0 :=
  ⟨(puppeteerOverride_forces_video urlReel0 recImage0 (some (some recVideo0)) (by decide)
      (by decide)).1,
    (puppeteerOverride_forces_video urlReel0 recImage0 (some (some recVideo0)) (by decide)
      (by decide)).2 recVideo0 rfl (by decide) rfl⟩

/-- C7: a malformed JSON candidate inside the embedded-script scan is skipped
without aborting the remaining candidates: with one malformed fragment
followed by one well-formed fragment whose extraction yields a record with a
media URL, the scan still returns that record. -/
theorem scanCandidates_skips_malformed (acc : Option MediaRecord)
    (rest : List (Option Json)) (j : Json) (r : MediaRecord)
    (hj : extractFromRequireData j = some r) (hr : r.mediaUrl ≠ []) :
    scanCandidates acc (none :: some j :: rest) = some r := by
  show scanCandidates acc (some j :: rest) = some r
  unfold scanCandidates
  simp only [hj]
  have : recordHasUrl (some r) = true := by
    simp [recordHasUrl, hr]
  rw [this]
  simp

/-- Witness for C7: a malformed fragment followed by the demo candidate still
yields the demo record. -/
theorem scanCandidates_skips_malformed_witness :
    extractFromRequireData jsonDemoCandidate = some jsonDemoRecord ∧
      jsonDemoRecord.mediaUrl ≠ [] ∧
      scanCandidates none [none, some jsonDemoCandidate] = some jsonDemoRecord :=
  ⟨by decide, by decide,
    scanCandidates_skips_malformed none [] jsonDemoCandidate jsonDemoRecord (by decide)
      (by decide)⟩

/-! ### Quality selector theorems (C1) -/

/-- The selection scan, described in closed form: when some candidate's area
exceeds the running maximum, the scan returns the first candidate of maximal
area; otherwise it keeps the accumulator.  (All sources non-empty, so the
truthiness filter reduces to a positive-area test.) -/
theorem scanBest_spec (rs : List DisplayResource) :
    ∀ (m : Nat) (best : Option DisplayResource), (∀ r ∈ rs, r.src ≠ []) →
      scanBest rs m best =
        if m < maxArea rs then rs.find? (fun r => area r = maxArea rs) else best := by
  induction rs with
  | nil =>
    intro m best _
    simp [scanBest, maxArea]
  | cons r rs ih =>
    intro m best hsrc
    have hr : r.src ≠ [] := hsrc r (by simp)
    have hrs : ∀ x ∈ rs, x.src ≠ [] := fun x hx => hsrc x (by simp [hx])
    have hmax : maxArea (r :: rs) = max (area r) (maxArea rs) := rfl
    by_cases ha : area r = 0
    · have hcond : ¬(r.src ≠ [] ∧ r.config_width ≠ 0 ∧ r.config_height ≠ 0) := by
        rintro ⟨-, hw, hh⟩
        exact absurd ha (Nat.mul_ne_zero hw hh)
      rw [scanBest, if_neg hcond, ih m best hrs]
      have hm2 : maxArea (r :: rs) = maxArea rs := by
        rw [hmax, ha, Nat.max_eq_right (Nat.zero_le _)]
      rw [hm2]
      by_cases hmx : m < maxArea rs
      · rw [if_pos hmx, if_pos hmx, List.find?_cons_of_neg]
        simp only [decide_eq_true_eq]
        omega
      · rw [if_neg hmx, if_neg hmx]
    · have hw : r.config_width ≠ 0 := by
        intro h0
        exact ha (by simp [area, h0])
      have hh : r.config_height ≠ 0 := by
        intro h0
        exact ha (by simp [area, h0])
      have harea : r.config_width * r.config_height = area r := rfl
      rw [scanBest, if_pos ⟨hr, hw, hh⟩, harea]
      by_cases hlt : m < area r
      · rw [if_pos hlt, ih (area r) (some r) hrs]
        have hm3 : m < maxArea (r :: rs) := by
          rw [hmax]
          omega
        rw [if_pos hm3]
        by_cases hcmp : maxArea rs ≤ area r
        · have hm4 : maxArea (r :: rs) = area r := by
            rw [hmax, Nat.max_eq_left hcmp]
          rw [if_neg (by omega), hm4, List.find?_cons_of_pos]
          simp
        · push_neg at hcmp
          have hm4 : maxArea (r :: rs) = maxArea rs := by
            rw [hmax, Nat.max_eq_right (le_of_lt hcmp)]
          rw [if_pos hcmp, hm4, List.find?_cons_of_neg]
          simp only [decide_eq_true_eq]
          omega
      · rw [if_neg hlt, ih m best hrs]
        by_cases hmx : m < maxArea rs
        · have hm3 : m < maxArea (r :: rs) := by
            rw [hmax]
            omega
          have hm4 : maxArea (r :: rs) = maxArea rs := by
            rw [hmax, Nat.max_eq_right (by omega)]
          rw [if_pos hmx, if_pos hm3, hm4, List.find?_cons_of_neg]
          simp only [decide_eq_true_eq]
          omega
        · have hm3 : ¬ m < maxArea (r :: rs) := by
            rw [hmax]
            omega
          rw [if_neg hmx, if_neg hm3]

/-- A positive maximum area is attained by some candidate. -/
theorem maxArea_attained (rs : List DisplayResource) (h : 0 < maxArea rs) :
    ∃ x ∈ rs, area x = maxArea rs := by
  induction rs with
  | nil => simp [maxArea] at h
  | cons r rs ih =>
    have hmax : maxArea (r :: rs) = max (area r) (maxArea rs) := rfl
    by_cases hc : maxArea rs ≤ area r
    · exact ⟨r, by simp, by rw [hmax, Nat.max_eq_left hc]⟩
    · push_neg at hc
      obtain ⟨x, hx, hax⟩ := ih (lt_of_le_of_lt (Nat.zero_le _) hc)
      exact ⟨x, by simp [hx], by rw [hmax, Nat.max_eq_right (le_of_lt hc), hax]⟩

/-- Counterexample to C1 as stated: on a candidate set whose two entries both
lack dimensions (area 0 each), the claim's rule picks the first (`"a"`), but
the code's fallback (server.js:554-558, "last URL is typically the highest
quality") returns the last (`"b"`). -/
theorem quality_selector_counterexample :
    displayResourcesPick [resNoDimA, resNoDimB] = some "b".toList ∧
      claimPick [resNoDimA, resNoDimB] = some "a".toList ∧
      displayResourcesPick [resNoDimA, resNoDimB] ≠ claimPick [resNoDimA, resNoDimB] := by
  decide

/-- C1 (amended): over a candidate set with non-empty sources, the selector
returns the first candidate of maximal area — area = width×height, missing
dimensions counting as 0 — provided that maximum is positive; when no
candidate has a positive area, it returns the last candidate's source, not
the first. -/
theorem quality_selector_amended (rs : List DisplayResource) (h1 : rs ≠ [])
    (h2 : ∀ r ∈ rs, r.src ≠ []) :
    displayResourcesPick rs =
      if 0 < maxArea rs then claimPick rs
      else rs.getLast?.map DisplayResource.src := by
  unfold displayResourcesPick
  rw [if_neg (by simp [h1]), scanBest_spec rs 0 none h2]
  by_cases hpos : 0 < maxArea rs
  · rw [if_pos hpos, if_pos hpos]
    obtain ⟨x, hx, hax⟩ := maxArea_attained rs hpos
    have hsome : (rs.find? (fun r => area r = maxArea rs)).isSome = true := by
      rw [List.find?_isSome]
      exact ⟨x, hx, by simp [hax]⟩
    obtain ⟨y, hy⟩ := Option.isSome_iff_exists.mp hsome
    rw [hy]
    unfold claimPick
    rw [hy]
    rfl
  · rw [if_neg hpos, if_neg hpos]
    have hlast : rs.getLast?.isSome = true := List.getLast?_isSome.mpr h1
    obtain ⟨last, hl⟩ := Option.isSome_iff_exists.mp hlast
    rw [hl]
    have hs := h2 last (List.mem_of_mem_getLast? hl)
    simp [hs]

/-- Witness for the amended C1 on a set with a positive tied maximum: the
first maximal candidate wins. -/
theorem quality_selector_amended_witness :
    ([resTieA, resTieB, resTieC] ≠ ([] : List DisplayResource)) ∧
      (∀ r ∈ [resTieA, resTieB, resTieC], r.src ≠ []) ∧
      displayResourcesPick [resTieA, resTieB, resTieC] =
        (if 0 < maxArea [resTieA, resTieB, resTieC] then claimPick [resTieA, resTieB, resTieC]
          else [resTieA, resTieB, resTieC].getLast?.map DisplayResource.src) :=
  ⟨by decide, by decide,
    quality_selector_amended [resTieA, resTieB, resTieC] (by decide) (by decide)⟩

/-! ### Non-emptiness preservation (for the record emission check) -/

theorem scanReplaceF_ne_nil (m : Str → Option (Str × Nat))
    (hm : ∀ s r k, m s = some (r, k) → r ≠ []) :
    ∀ f s, s ≠ [] → scanReplaceF m f s ≠ [] := by
  intro f
  induction f with
  | zero => intro s hs; exact hs
  | succ f ih =>
    intro s hs
    cases s with
    | nil => exact absurd rfl hs
    | cons c t =>
      simp only [scanReplaceF]
      cases hm2 : m (c :: t) with
      | some rk =>
        have := hm _ _ _ hm2
        simp [this]
      | none => simp

theorem scanReplace_ne_nil (m : Str → Option (Str × Nat))
    (hm : ∀ s r k, m s = some (r, k) → r ≠ []) (s : Str) (hs : s ≠ []) :
    scanReplace m s ≠ [] :=
  scanReplaceF_ne_nil m hm s.length s hs

theorem csLit_ne_nil (p r : Str) (hr : r ≠ []) :
    ∀ s q k, csLit p r s = some (q, k) → q ≠ [] := by
  intro s q k h
  unfold csLit at h
  split at h
  · cases h; exact hr
  · exact absurd h (by simp)

theorem ciLit_ne_nil (p r : Str) (hr : r ≠ []) :
    ∀ s q k, ciLit p r s = some (q, k) → q ≠ [] := by
  intro s q k h
  unfold ciLit at h
  split at h
  · cases h; exact hr
  · exact absurd h (by simp)

theorem urlPass_ne_nil (s : Str) (hs : s ≠ []) : urlPass s ≠ [] := by
  unfold urlPass
  have main : ∀ (l : List (Str × Str)), (∀ pr ∈ l, pr.2 ≠ []) → ∀ s : Str, s ≠ [] →
      l.foldl (fun acc pr => scanReplace (ciLit pr.1 pr.2) acc) s ≠ [] := by
    intro l hl
    induction l with
    | nil => intro s hs; exact hs
    | cons pr l ih =>
      intro s hs
      simp only [List.foldl_cons]
      exact ih (fun q hq => hl q (by simp [hq]))
        _ (scanReplace_ne_nil _ (ciLit_ne_nil pr.1 pr.2 (hl pr (by simp))) s hs)
  exact main urlEntityPairs (by decide) s hs

theorem decodeLoopF_ne_nil : ∀ f s, s ≠ [] → decodeLoopF f s ≠ [] := by
  intro f
  induction f with
  | zero => intro s hs; exact hs
  | succ f ih =>
    intro s hs
    simp only [decodeLoopF]
    by_cases hfix : urlPass s = s
    · simp [hfix, hs]
    · rw [if_neg hfix]
      exact ih (urlPass s) (urlPass_ne_nil s hs)

theorem decodeUrlEntities_ne_nil (s : Str) (hs : s ≠ []) : decodeUrlEntities s ≠ [] := by
  unfold decodeUrlEntities decodeLoop
  rw [if_neg hs]
  exact decodeLoopF_ne_nil _ s hs

theorem unescape3_ne_nil (s : Str) (hs : s ≠ []) : unescape3 s ≠ [] := by
  unfold unescape3
  refine scanReplace_ne_nil _ (csLit_ne_nil _ _ (by decide)) _ ?_
  refine scanReplace_ne_nil _ (csLit_ne_nil _ _ (by decide)) _ ?_
  exact scanReplace_ne_nil _ (csLit_ne_nil _ _ (by decide)) _ hs

theorem firstCapture_ne_nil (pat : Str) :
    ∀ s v, firstCapture pat s = some v → v ≠ [] := by
  intro s
  induction s with
  | nil => intro v h; exact absurd h (by simp [firstCapture])
  | cons c t ih =>
    intro v h
    rw [firstCapture] at h
    split at h
    · dsimp only at h
      split at h
      · next hcap =>
        cases h
        simp only [Bool.and_eq_true, Bool.not_eq_true'] at hcap
        simpa using hcap.1
      · exact ih v h
    · exact ih v h

/-- C8: when the inline-field strategy finds both a video-asset field and a
display field, it returns a video-typed record whose `mediaUrl` is the
decoded video value — the display value is ignored for `mediaUrl` and no
size-constraint stripping is applied; when only the display field is found
(no video pattern, no high-quality variant), the record is image-typed and
its `mediaUrl` is the decoded display value with size constraints
stripped. -/
theorem method1_video_priority :
    (∀ (html : Str) (hq : Option Str) (v d : Str),
      firstCapture vPat1 html = some v → firstCapture dPat html = some d →
      ∃ r, method1 hq html = some r ∧ r.mediaType = MediaType.video ∧
        r.mediaUrl = decodeUrlEntities (unescape3 v)) ∧
    (∀ (html : Str) (d : Str),
      firstCapture vPat1 html = none → firstCapture vPat2 html = none →
      firstCapture vPat3 html = none → firstCapture dPat html = some d →
      stripSizeConstraints (decodeUrlEntities (unescape3 d)) ≠ [] →
      ∃ r, method1 none html = some r ∧ r.mediaType = MediaType.image ∧
        r.mediaUrl = stripSizeConstraints (decodeUrlEntities (unescape3 d))) := by
  constructor
  · intro html hq v d hv hd
    have hvne : v ≠ [] := firstCapture_ne_nil vPat1 html v hv
    have hm0 : decodeUrlEntities (unescape3 v) ≠ [] :=
      decodeUrlEntities_ne_nil _ (unescape3_ne_nil v hvne)
    refine ⟨{ mediaUrl := decodeUrlEntities (unescape3 v)
              thumbnailUrl := decodeUrlEntities (unescape2 d)
              caption := decodeHtmlEntities ((firstCapture capPat html).getD [])
              author := (ownerCapture html).getD "Unknown".toList
              mediaType := MediaType.video
              timestamp := (tsCapture html).map Int.ofNat }, ?_, rfl, rfl⟩
    unfold method1
    rw [hv, hd]
    simp [hm0]
  · intro html d h1 h2 h3 hd hst
    have hdne : d ≠ [] := firstCapture_ne_nil dPat html d hd
    have hm0 : decodeUrlEntities (unescape3 d) ≠ [] :=
      decodeUrlEntities_ne_nil _ (unescape3_ne_nil d hdne)
    generalize hgen : stripSizeConstraints (decodeUrlEntities (unescape3 d)) = w at hst ⊢
    refine ⟨{ mediaUrl := w
              thumbnailUrl := decodeUrlEntities (unescape2 d)
              caption := decodeHtmlEntities ((firstCapture capPat html).getD [])
              author := (ownerCapture html).getD "Unknown".toList
              mediaType := MediaType.image
              timestamp := (tsCapture html).map Int.ofNat }, ?_, rfl, rfl⟩
    unfold method1
    rw [h1, h2, h3, hd]
    simp [hm0, hst, hgen, hqTruthy]

/-- Witness for C8: a source with both fields yields the decoded video URL
with type video; a display-only source yields the stripped decoded display
URL with type image. -/
theorem method1_video_priority_witness :
    (∃ r, method1 none htmlVidDemo = some r ∧ r.mediaType = MediaType.video ∧
        r.mediaUrl = decodeUrlEntities (unescape3 vCapDemo)) ∧
    (∃ r, method1 none htmlImgDemo = some r ∧ r.mediaType = MediaType.image ∧
        r.mediaUrl = stripSizeConstraints (decodeUrlEntities (unescape3 dCapDemo))) :=
  ⟨method1_video_priority.1 htmlVidDemo none vCapDemo dCapDemo (by decide) (by decide),
    method1_video_priority.2 htmlImgDemo dCapDemo (by decide) (by decide) (by decide)
      (by decide) (by decide)⟩

/-! #### Monotonicity of the occurrence predicates -/

theorem isPrefixOf_append_right {p t u : Str} (h : p.isPrefixOf t = true) :
    p.isPrefixOf (t ++ u) = true := by
  rw [List.isPrefixOf_iff_prefix] at h ⊢
  exact h.trans (List.prefix_append t u)

theorem hasParam_append_right {k s₁ : Str} (s₂ : Str) (h : hasParam k s₁ = true) :
    hasParam k (s₁ ++ s₂) = true := by
  induction s₁ with
  | nil => simp [hasParam] at h
  | cons c t ih =>
    simp only [List.cons_append, hasParam, Bool.or_eq_true] at h ⊢
    rcases h with h | h
    · left
      simp only [Bool.and_eq_true] at h ⊢
      exact ⟨h.1, isPrefixOf_append_right h.2⟩
    · right; exact ih h

theorem hasParam_append_left {k : Str} (s₁ : Str) {s₂ : Str} (h : hasParam k s₂ = true) :
    hasParam k (s₁ ++ s₂) = true := by
  induction s₁ with
  | nil => simpa using h
  | cons c t ih =>
    simp only [List.cons_append, hasParam, Bool.or_eq_true]
    right
    exact ih

theorem hasParam_suffix {k t s : Str} (h : t <:+ s) (hp : hasParam k t = true) :
    hasParam k s = true := by
  obtain ⟨u, rfl⟩ := h
  exact hasParam_append_left u hp

/-! #### The path matcher: basic facts -/

theorem mcState_append : ∀ (x : Str) (n : Nat) {u r : Str}, mcState n x = some r →
    mcState n (x ++ u) = some (r ++ u) := by
  intro x
  induction x with
  | nil =>
    intro n u r h
    simp [mcState] at h
  | cons c x ih =>
    intro n u r h
    rcases n with _|_|_|_|_|_|_|_|_|_|_|m <;>
      simp only [mcState, List.cons_append] at h ⊢ <;>
      (try split_ifs at h ⊢) <;>
      first
        | exact ih _ h
        | (cases h <;> rfl)

theorem mcState_suffix : ∀ (x : Str) (n : Nat) {r : Str}, mcState n x = some r → r <:+ x := by
  intro x
  induction x with
  | nil =>
    intro n r h
    simp [mcState] at h
  | cons c x ih =>
    intro n r h
    rcases n with _|_|_|_|_|_|_|_|_|_|_|m <;>
      simp only [mcState] at h <;>
      (try split_ifs at h) <;>
      first
        | exact (ih _ h).trans (List.suffix_cons c x)
        | (cases h; exact List.suffix_cons c x)
        | simp_all

/-- The matcher fails on a separator or `'/'` head, in every state. -/
theorem mcState_qa_none (n : Nat) {c : Char} (t : Str)
    (hc : isQA c = true ∨ c = '/') : mcState n (c :: t) = none := by
  have hcs : c = '?' ∨ c = '&' ∨ c = '/' := by
    rcases hc with h | h
    · simp only [isQA, Bool.or_eq_true, decide_eq_true_eq] at h
      tauto
    · tauto
  rcases hcs with rfl | rfl | rfl <;>
    rcases n with _|_|_|_|_|_|_|_|_|_|_|m <;>
    simp [mcState, isDigitC, isLowerC]

theorem dropWhile_head_qa (l : Str) :
    l.dropWhile (fun d => !isQA d) = [] ∨
      ∃ c t, l.dropWhile (fun d => !isQA d) = c :: t ∧ isQA c = true := by
  induction l with
  | nil => left; rfl
  | cons c t ih =>
    by_cases hc : isQA c = true
    · right
      exact ⟨c, t, by simp [List.dropWhile_cons, hc], hc⟩
    · simpa [List.dropWhile_cons, hc] using ih

theorem dropWhile_head_amp (l : Str) :
    l.dropWhile (fun d => !(d = '&')) = [] ∨
      ∃ t, l.dropWhile (fun d => !(d = '&')) = '&' :: t := by
  induction l with
  | nil => left; rfl
  | cons c t ih =>
    by_cases hc : c = '&'
    · right
      exact ⟨t, by simp [List.dropWhile_cons, hc]⟩
    · simpa [List.dropWhile_cons, hc] using ih

theorem isPrefixOf_nil_iff {p : Str} : p.isPrefixOf ([] : Str) = true ↔ p = [] := by
  cases p <;> simp [List.isPrefixOf]

theorem isPrefixOf_cons_iff {a c : Char} {p t : Str} :
    (a :: p).isPrefixOf (c :: t) = true ↔ a = c ∧ p.isPrefixOf t = true := by
  simp [List.isPrefixOf]

/-- One-character unfolding of `matchPathAt`. -/
theorem matchPathAt_cons (c : Char) (t : Str) :
    matchPathAt (c :: t) = if c = '/' then (sFam t).isSome else false := by
  by_cases hc : c = '/'
  · subst hc
    rw [if_pos rfl]
    rfl
  · rw [if_neg hc]
    unfold matchPathAt
    split
    · next heq =>
      injection heq with h1 _
      exact absurd h1 hc
    · rfl

/-- Reflection of a matcher success through one copied character. -/
theorem mcState_cons_reflect {c : Char} {Y s : Str}
    (hrec : ∀ n, (mcState n Y).isSome = true → (mcState n s).isSome = true) :
    ∀ n, (mcState n (c :: Y)).isSome = true → (mcState n (c :: s)).isSome = true := by
  intro n h
  rcases n with _|_|_|_|_|_|_|_|_|_|_|m <;>
    simp only [mcState] at h ⊢ <;>
    (try split_ifs at h ⊢) <;>
    first
      | exact hrec _ h
      | simp_all

/-- A matcher success on the output of the path removal reflects to the
input: removal junctions start at separators, where every state fails. -/
theorem mcState_removePathF : ∀ (f : Nat) (s : Str) (n : Nat),
    (mcState n (removePathF f s)).isSome = true → (mcState n s).isSome = true := by
  intro f
  induction f with
  | zero => intro s n h; exact h
  | succ f ih =>
    intro s n h
    cases s with
    | nil => simpa [removePathF] using h
    | cons c s =>
      rw [removePathF] at h
      by_cases hc : c = '/'
      · rw [if_pos hc] at h
        cases hsf : sFam s with
        | some rest =>
          rw [hsf] at h
          have h2 := ih _ _ h
          rcases dropWhile_head_qa rest with he | ⟨d, t2, he, hqa⟩
          · rw [he] at h2
            simp [mcState] at h2
          · rw [he, mcState_qa_none n t2 (Or.inl hqa)] at h2
            simp at h2
        | none =>
          rw [hsf] at h
          exact mcState_cons_reflect (fun n2 => ih s n2) n h
      · rw [if_neg hc] at h
        exact mcState_cons_reflect (fun n2 => ih s n2) n h

/-- With sufficient fuel, the output of the path removal contains no core
pattern occurrence. -/
theorem hasPathCore_removePathF : ∀ (f : Nat) (s : Str), s.length ≤ f →
    hasPathCore (removePathF f s) = false := by
  intro f
  induction f with
  | zero =>
    intro s h
    have hs : s = [] := by cases s <;> simp_all
    subst hs
    rfl
  | succ f ih =>
    intro s h
    cases s with
    | nil => simp [removePathF, hasPathCore]
    | cons c s =>
      simp only [List.length_cons, Nat.add_le_add_iff_right] at h
      rw [removePathF]
      by_cases hc : c = '/'
      · rw [if_pos hc]
        cases hsf : sFam s with
        | some rest =>
          apply ih
          have h1 : rest.length ≤ s.length := (mcState_suffix s 0 hsf).length_le
          have h2 : (rest.dropWhile (fun d => !isQA d)).length ≤ rest.length :=
            (List.dropWhile_suffix _).length_le
          omega
        | none =>
          rw [hasPathCore, Bool.or_eq_false_iff]
          refine ⟨?_, ih s h⟩
          rw [matchPathAt_cons, if_pos hc]
          cases hy : (sFam (removePathF f s)).isSome
          · rfl
          · exfalso
            have := mcState_removePathF f s 0 hy
            rw [show mcState 0 s = none from hsf] at this
            simp at this
      · rw [if_neg hc, hasPathCore, Bool.or_eq_false_iff]
        refine ⟨?_, ih s h⟩
        rw [matchPathAt_cons, if_neg hc]

/-- The path removal is the identity on strings without a core occurrence. -/
theorem removePathF_id : ∀ (f : Nat) {s : Str}, hasPathCore s = false →
    removePathF f s = s := by
  intro f
  induction f with
  | zero => intro s _; rfl
  | succ f ih =>
    intro s h
    cases s with
    | nil => rfl
    | cons c s =>
      rw [hasPathCore, Bool.or_eq_false_iff] at h
      obtain ⟨hhead, htail⟩ := h
      rw [matchPathAt_cons] at hhead
      rw [removePathF]
      by_cases hc : c = '/'
      · rw [if_pos hc] at hhead ⊢
        have hsf : sFam s = none := by
          cases hv : sFam s
          · rfl
          · rw [hv] at hhead
            simp at hhead
        rw [hsf, ih htail]
      · rw [if_neg hc, ih htail]

/-- A separator-free prefix of the path-removal output is a prefix of the
input. -/
theorem isPrefixOf_removePathF : ∀ (f : Nat) (s p : Str), (∀ a ∈ p, isQA a = false) →
    p.isPrefixOf (removePathF f s) = true → p.isPrefixOf s = true := by
  intro f
  induction f with
  | zero => intro s p _ h; exact h
  | succ f ih =>
    intro s p hp h
    cases s with
    | nil => simpa [removePathF] using h
    | cons c s =>
      rw [removePathF] at h
      have hcommon : p.isPrefixOf (c :: removePathF f s) = true →
          p.isPrefixOf (c :: s) = true := by
        intro h2
        cases p with
        | nil => simp [List.isPrefixOf]
        | cons a p' =>
          rw [isPrefixOf_cons_iff] at h2 ⊢
          refine ⟨h2.1, ih s p' (fun x hx => hp x (by simp [hx])) h2.2⟩
      by_cases hc : c = '/'
      · rw [if_pos hc] at h
        cases hsf : sFam s with
        | some rest =>
          rw [hsf] at h
          have h2 := ih _ _ hp h
          rcases dropWhile_head_qa rest with he | ⟨d, t2, he, hqa⟩
          · rw [he, isPrefixOf_nil_iff] at h2
            subst h2
            simp [List.isPrefixOf]
          · rw [he] at h2
            cases p with
            | nil => simp [List.isPrefixOf]
            | cons a p' =>
              rw [isPrefixOf_cons_iff] at h2
              exact absurd (h2.1 ▸ hqa) (by simp [hp a (by simp)])
        | none =>
          rw [hsf] at h
          exact hcommon h
      · rw [if_neg hc] at h
        exact hcommon h

/-- The path removal cannot create a parameter occurrence. -/
theorem hasParam_removePathF {k : Str} (hk : ∀ a ∈ k ++ ['='], isQA a = false) :
    ∀ (f : Nat) (s : Str), hasParam k (removePathF f s) = true → hasParam k s = true := by
  intro f
  induction f with
  | zero => intro s h; exact h
  | succ f ih =>
    intro s h
    cases s with
    | nil => simpa [removePathF] using h
    | cons c s =>
      rw [removePathF] at h
      have hcommon : hasParam k (c :: removePathF f s) = true →
          hasParam k (c :: s) = true := by
        intro h2
        rw [hasParam, Bool.or_eq_true] at h2 ⊢
        rcases h2 with h2 | h2
        · rw [Bool.and_eq_true] at h2
          exact Or.inl (by
            rw [Bool.and_eq_true]
            exact ⟨h2.1, isPrefixOf_removePathF f s _ hk h2.2⟩)
        · exact Or.inr (ih s h2)
      by_cases hc : c = '/'
      · rw [if_pos hc] at h
        cases hsf : sFam s with
        | some rest =>
          rw [hsf] at h
          have h2 := ih _ h
          have hsuf : (rest.dropWhile (fun d => !isQA d)) <:+ s :=
            (List.dropWhile_suffix _).trans (mcState_suffix s 0 hsf)
          rw [hasParam, Bool.or_eq_true]
          exact Or.inr (hasParam_suffix hsuf h2)
        | none =>
          rw [hsf] at h
          exact hcommon h
      · rw [if_neg hc] at h
        exact hcommon h

/-- The value jump of a parameter match is a suffix of the tail. -/
theorem paramJump_suffix (key s : Str) :
    ((s.drop (key.length + 1)).dropWhile (fun d => !(d = '&'))) <:+ s :=
  (List.dropWhile_suffix _).trans (List.drop_suffix _ s)

/-- A separator-free prefix of the parameter-removal output is a prefix of
the input. -/
theorem isPrefixOf_removeParamF (key : Str) : ∀ (f : Nat) (s p : Str),
    (∀ a ∈ p, isQA a = false) →
    p.isPrefixOf (removeParamF key f s) = true → p.isPrefixOf s = true := by
  intro f
  induction f with
  | zero => intro s p _ h; exact h
  | succ f ih =>
    intro s p hp h
    cases s with
    | nil => simpa [removeParamF] using h
    | cons c s =>
      rw [removeParamF] at h
      by_cases hm : (isQA c && (key ++ ['=']).isPrefixOf s) = true
      · rw [if_pos hm] at h
        have h2 := ih _ _ hp h
        rcases dropWhile_head_amp (s.drop (key.length + 1)) with he | ⟨t2, he⟩
        · rw [he, isPrefixOf_nil_iff] at h2
          subst h2
          simp [List.isPrefixOf]
        · rw [he] at h2
          cases p with
          | nil => simp [List.isPrefixOf]
          | cons a p' =>
            rw [isPrefixOf_cons_iff] at h2
            have : isQA a = false := hp a (by simp)
            rw [h2.1] at this
            simp [isQA] at this
      · rw [if_neg hm] at h
        cases p with
        | nil => simp [List.isPrefixOf]
        | cons a p' =>
          rw [isPrefixOf_cons_iff] at h ⊢
          exact ⟨h.1, ih s p' (fun x hx => hp x (by simp [hx])) h.2⟩

/-- With sufficient fuel, removing a parameter leaves no occurrence of it. -/
theorem hasParam_removeParamF_self {key : Str}
    (hk : ∀ a ∈ key ++ ['='], isQA a = false) :
    ∀ (f : Nat) (s : Str), s.length ≤ f →
      hasParam key (removeParamF key f s) = false := by
  intro f
  induction f with
  | zero =>
    intro s h
    have hs : s = [] := by cases s <;> simp_all
    subst hs
    rfl
  | succ f ih =>
    intro s h
    cases s with
    | nil => simp [removeParamF, hasParam]
    | cons c s =>
      simp only [List.length_cons, Nat.add_le_add_iff_right] at h
      rw [removeParamF]
      by_cases hm : (isQA c && (key ++ ['=']).isPrefixOf s) = true
      · rw [if_pos hm]
        apply ih
        have := (paramJump_suffix key s).length_le
        omega
      · rw [if_neg hm, hasParam, Bool.or_eq_false_iff]
        refine ⟨?_, ih s h⟩
        cases hq : isQA c
        · rfl
        · cases hpre : (key ++ ['=']).isPrefixOf (removeParamF key f s)
          · simp
          · exfalso
            have hps : (key ++ ['=']).isPrefixOf s = true :=
              isPrefixOf_removeParamF key f s _ hk hpre
            exact hm (by rw [hq, hps]; rfl)

/-- Removing one parameter cannot create an occurrence of a (separator-free)
parameter pattern. -/
theorem hasParam_removeParamF {k key : Str} (hk : ∀ a ∈ k ++ ['='], isQA a = false) :
    ∀ (f : Nat) (s : Str), hasParam k (removeParamF key f s) = true →
      hasParam k s = true := by
  intro f
  induction f with
  | zero => intro s h; exact h
  | succ f ih =>
    intro s h
    cases s with
    | nil => simpa [removeParamF] using h
    | cons c s =>
      rw [removeParamF] at h
      by_cases hm : (isQA c && (key ++ ['=']).isPrefixOf s) = true
      · rw [if_pos hm] at h
        have h2 := ih _ h
        rw [hasParam, Bool.or_eq_true]
        exact Or.inr (hasParam_suffix (paramJump_suffix key s) h2)
      · rw [if_neg hm] at h
        rw [hasParam, Bool.or_eq_true] at h ⊢
        rcases h with h | h
        · rw [Bool.and_eq_true] at h
          refine Or.inl ?_
          rw [Bool.and_eq_true]
          exact ⟨h.1, isPrefixOf_removeParamF key f s _ hk h.2⟩
        · exact Or.inr (ih s h)

/-- The parameter removal is the identity when the parameter does not
occur. -/
theorem removeParamF_id (key : Str) : ∀ (f : Nat) {s : Str},
    hasParam key s = false → removeParamF key f s = s := by
  intro f
  induction f with
  | zero => intro s _; rfl
  | succ f ih =>
    intro s h
    cases s with
    | nil => rfl
    | cons c s =>
      rw [hasParam, Bool.or_eq_false_iff] at h
      obtain ⟨hhead, htail⟩ := h
      rw [removeParamF, if_neg (by rw [hhead]; simp), ih htail]

/-! #### The separator collapse -/

theorem dropWhile_head_notqa (l : Str) :
    l.dropWhile isQA = [] ∨ ∃ c t, l.dropWhile isQA = c :: t ∧ isQA c = false := by
  induction l with
  | nil => left; rfl
  | cons c t ih =>
    by_cases hc : isQA c = true
    · simpa [List.dropWhile_cons, hc] using ih
    · right
      exact ⟨c, t, by simp [List.dropWhile_cons, hc], by simpa using hc⟩

/-- A `[?&]KEY=` prefix found right after the separator run of `c :: s` was
already an occurrence in `c :: s`. -/
theorem hasParam_of_prefix_dropWhile {k : Str} : ∀ (s : Str) (c : Char), isQA c = true →
    (k ++ ['=']).isPrefixOf (s.dropWhile isQA) = true → hasParam k (c :: s) = true := by
  intro s
  induction s with
  | nil =>
    intro c _ h
    rw [List.dropWhile_nil, isPrefixOf_nil_iff] at h
    exact absurd h (by simp)
  | cons d t ih =>
    intro c hc h
    by_cases hd : isQA d = true
    · rw [List.dropWhile_cons, if_pos (by simp [hd])] at h
      have := ih d hd h
      rw [hasParam, Bool.or_eq_true]
      exact Or.inr this
    · rw [List.dropWhile_cons, if_neg (by simp [hd])] at h
      rw [hasParam, Bool.or_eq_true]
      exact Or.inl (by rw [Bool.and_eq_true]; exact ⟨hc, h⟩)

/-- A separator-free prefix of the collapse-tail output is a prefix of the
input. -/
theorem isPrefixOf_collapseTailF : ∀ (f : Nat) (s p : Str), (∀ a ∈ p, isQA a = false) →
    p.isPrefixOf (collapseTailF f s) = true → p.isPrefixOf s = true := by
  intro f
  induction f with
  | zero => intro s p _ h; exact h
  | succ f ih =>
    intro s p hp h
    cases s with
    | nil => simpa [collapseTailF] using h
    | cons c s =>
      rw [collapseTailF] at h
      by_cases hq : isQA c = true
      · rw [if_pos hq] at h
        cases p with
        | nil => simp [List.isPrefixOf]
        | cons a p' =>
          rw [isPrefixOf_cons_iff] at h
          have : isQA a = false := hp a (by simp)
          rw [h.1] at this
          simp [isQA] at this
      · rw [if_neg hq] at h
        cases p with
        | nil => simp [List.isPrefixOf]
        | cons a p' =>
          rw [isPrefixOf_cons_iff] at h ⊢
          exact ⟨h.1, ih s p' (fun x hx => hp x (by simp [hx])) h.2⟩

/-- The collapse tail cannot create a parameter occurrence. -/
theorem hasParam_collapseTailF {k : Str} (hk : ∀ a ∈ k ++ ['='], isQA a = false) :
    ∀ (f : Nat) (s : Str), hasParam k (collapseTailF f s) = true → hasParam k s = true := by
  intro f
  induction f with
  | zero => intro s h; exact h
  | succ f ih =>
    intro s h
    cases s with
    | nil => simpa [collapseTailF] using h
    | cons c s =>
      rw [collapseTailF] at h
      by_cases hq : isQA c = true
      · rw [if_pos hq] at h
        rw [hasParam, Bool.or_eq_true] at h
        rcases h with h | h
        · rw [Bool.and_eq_true] at h
          have hpre := isPrefixOf_collapseTailF f _ _ hk h.2
          exact hasParam_of_prefix_dropWhile s c hq hpre
        · have h2 := ih _ h
          have hsuf : s.dropWhile isQA <:+ s := List.dropWhile_suffix _
          rw [hasParam, Bool.or_eq_true]
          exact Or.inr (hasParam_suffix hsuf h2)
      · rw [if_neg hq] at h
        rw [hasParam, Bool.or_eq_true] at h ⊢
        rcases h with h | h
        · rw [Bool.and_eq_true] at h
          exact absurd h.1 hq
        · exact Or.inr (ih s h)

/-- A matcher success on the collapse-tail output reflects to the input. -/
theorem mcState_collapseTailF : ∀ (f : Nat) (s : Str) (n : Nat),
    (mcState n (collapseTailF f s)).isSome = true → (mcState n s).isSome = true := by
  intro f
  induction f with
  | zero => intro s n h; exact h
  | succ f ih =>
    intro s n h
    cases s with
    | nil => simpa [collapseTailF] using h
    | cons c s =>
      rw [collapseTailF] at h
      by_cases hq : isQA c = true
      · rw [if_pos hq] at h
        rw [mcState_qa_none n _ (Or.inl (by simp [isQA]))] at h
        simp at h
      · rw [if_neg hq] at h
        exact mcState_cons_reflect (fun n2 => ih s n2) n h

/-- The collapse tail cannot create a core path occurrence. -/
theorem hasPathCore_collapseTailF : ∀ (f : Nat) (s : Str),
    hasPathCore (collapseTailF f s) = true → hasPathCore s = true := by
  intro f
  induction f with
  | zero => intro s h; exact h
  | succ f ih =>
    intro s h
    cases s with
    | nil => simpa [collapseTailF] using h
    | cons c s =>
      rw [collapseTailF] at h
      by_cases hq : isQA c = true
      · rw [if_pos hq] at h
        rw [hasPathCore, Bool.or_eq_true] at h
        rcases h with h | h
        · rw [matchPathAt_cons] at h
          simp at h
        · have h2 := ih _ h
          have : hasPathCore s = true := by
            have hsuf : s.dropWhile isQA <:+ s := List.dropWhile_suffix isQA
            obtain ⟨w, hw⟩ := hsuf
            rw [← hw]
            -- append-left monotone for hasPathCore
            clear hw
            induction w with
            | nil => simpa using h2
            | cons a wtl ihw =>
              rw [List.cons_append, hasPathCore, Bool.or_eq_true]
              exact Or.inr ihw
          rw [hasPathCore, Bool.or_eq_true]
          exact Or.inr this
      · rw [if_neg hq] at h
        rw [hasPathCore, Bool.or_eq_true] at h ⊢
        rcases h with h | h
        · rw [matchPathAt_cons] at h ⊢
          by_cases hc : c = '/'
          · rw [if_pos hc] at h ⊢
            exact Or.inl (mcState_collapseTailF f s 0 h)
          · rw [if_neg hc] at h
            exact absurd h (by simp)
        · exact Or.inr (ih s h)

theorem collapseTailF_nil : ∀ f : Nat, collapseTailF f [] = [] := by
  intro f; cases f <;> rfl

/-- The collapse tail keeps a non-separator head of the input (or stays empty). -/
theorem collapseTailF_head : ∀ (f : Nat) (X : Str),
    (X = [] ∨ ∃ c t, X = c :: t ∧ isQA c = false) →
    (collapseTailF f X = [] ∨ ∃ c w, collapseTailF f X = c :: w ∧ isQA c = false) := by
  intro f X h
  rcases h with rfl | ⟨c, t, rfl, hc⟩
  · left; exact collapseTailF_nil f
  · cases f with
    | zero => right; exact ⟨c, t, rfl, hc⟩
    | succ f =>
      right
      refine ⟨c, collapseTailF f t, ?_, hc⟩
      rw [collapseTailF, if_neg (by simp [hc])]

/-- The collapse tail emits no `'?'`. -/
theorem noQ_collapseTailF : ∀ (f : Nat) (s : Str), s.length ≤ f →
    noQ (collapseTailF f s) = true := by
  intro f
  induction f with
  | zero =>
    intro s hle
    cases s with
    | nil => rfl
    | cons c t => simp at hle
  | succ f ih =>
    intro s hle
    cases s with
    | nil => rfl
    | cons c s =>
      rw [collapseTailF]
      by_cases hq : isQA c = true
      · rw [if_pos hq, noQ, Bool.and_eq_true]
        have hlen : (s.dropWhile isQA).length ≤ f := by
          have h1 : (s.dropWhile isQA).length ≤ s.length :=
            (List.dropWhile_suffix isQA).length_le
          simp only [List.length_cons] at hle
          omega
        exact ⟨by decide, ih _ hlen⟩
      · rw [if_neg hq, noQ, Bool.and_eq_true]
        have hc : c = '?' ∨ c = '&' → False := by
          intro h2
          exact hq (by rcases h2 with h | h <;> simp [isQA, h])
        refine ⟨?_, ih s (by simp only [List.length_cons] at hle; omega)⟩
        have : ¬ c = '?' := fun h2 => hc (Or.inl h2)
        simp [this]

theorem noAdjQA_cons_of (c : Char) (E : Str)
    (hCE : E = [] ∨ ∃ d w, E = d :: w ∧ (isQA c = false ∨ isQA d = false))
    (hE : noAdjQA E = true) : noAdjQA (c :: E) = true := by
  rcases hCE with rfl | ⟨d, w, rfl, hor⟩
  · rfl
  · rw [noAdjQA, Bool.and_eq_true]
    refine ⟨?_, hE⟩
    rcases hor with h | h <;> simp [h]

/-- The collapse tail emits no adjacent separators. -/
theorem noAdjQA_collapseTailF : ∀ (f : Nat) (s : Str), s.length ≤ f →
    noAdjQA (collapseTailF f s) = true := by
  intro f
  induction f with
  | zero =>
    intro s hle
    cases s with
    | nil => rfl
    | cons c t => simp at hle
  | succ f ih =>
    intro s hle
    cases s with
    | nil => rfl
    | cons c s =>
      rw [collapseTailF]
      by_cases hq : isQA c = true
      · rw [if_pos hq]
        have hlen : (s.dropWhile isQA).length ≤ f := by
          have h1 : (s.dropWhile isQA).length ≤ s.length :=
            (List.dropWhile_suffix isQA).length_le
          simp only [List.length_cons] at hle
          omega
        apply noAdjQA_cons_of
        · rcases collapseTailF_head f _ (dropWhile_head_notqa s) with hn | ⟨d, w, he, hd⟩
          · left; exact hn
          · right; exact ⟨d, w, he, Or.inr hd⟩
        · exact ih _ hlen
      · rw [if_neg hq]
        apply noAdjQA_cons_of
        · cases he : collapseTailF f s with
          | nil => left; rfl
          | cons d w => right; exact ⟨d, w, rfl, Or.inl (Bool.eq_false_iff.mpr hq)⟩
        · exact ih s (by simp only [List.length_cons] at hle; omega)

/-- The full collapse establishes the separator discipline. -/
theorem goodSeps_collapseQA (s : Str) : goodSeps (collapseQA s) = true := by
  cases s with
  | nil => rfl
  | cons c s =>
    rw [collapseQA]
    by_cases hq : isQA c = true
    · rw [if_pos hq, goodSeps, Bool.and_eq_true, Bool.and_eq_true]
      refine ⟨⟨by decide, noQ_collapseTailF _ _ (le_refl _)⟩, ?_⟩
      apply noAdjQA_cons_of
      · rcases collapseTailF_head _ _ (dropWhile_head_notqa s) with hn | ⟨d, w, he, hd⟩
        · left; exact hn
        · right; exact ⟨d, w, he, Or.inr hd⟩
      · exact noAdjQA_collapseTailF _ _ (le_refl _)
    · rw [if_neg hq, goodSeps, Bool.and_eq_true, Bool.and_eq_true]
      have hc : ¬ c = '&' := fun h2 => hq (by simp [isQA, h2])
      refine ⟨⟨by simp [hc], noQ_collapseTailF _ _ (le_refl _)⟩, ?_⟩
      apply noAdjQA_cons_of
      · cases he : collapseTail s with
        | nil => left; rfl
        | cons d w => right; exact ⟨d, w, rfl, Or.inl (Bool.eq_false_iff.mpr hq)⟩
      · exact noAdjQA_collapseTailF _ _ (le_refl _)

theorem noAdjQA_tail {c : Char} {s : Str} (h : noAdjQA (c :: s) = true) :
    noAdjQA s = true := by
  cases s with
  | nil => rfl
  | cons d t =>
    rw [noAdjQA, Bool.and_eq_true] at h
    exact h.2

/-- The collapse tail is the identity on separator-disciplined strings. -/
theorem collapseTailF_id : ∀ (f : Nat) (s : Str), noQ s = true → noAdjQA s = true →
    collapseTailF f s = s := by
  intro f
  induction f with
  | zero => intro s _ _; rfl
  | succ f ih =>
    intro s hQ hA
    cases s with
    | nil => rfl
    | cons c s =>
      rw [noQ, Bool.and_eq_true] at hQ
      rw [collapseTailF]
      by_cases hq : isQA c = true
      · rw [if_pos hq]
        have hc : c = '&' := by
          have h2 : c = '?' ∨ c = '&' := by simpa [isQA] using hq
          rcases h2 with h | h
          · rw [h] at hQ; simp at hQ
          · exact h
        cases s with
        | nil => rw [hc, List.dropWhile_nil, collapseTailF_nil]
        | cons d t =>
          rw [noAdjQA, Bool.and_eq_true] at hA
          have hd : isQA d = false := by
            cases hd2 : isQA d
            · rfl
            · have h1 := hA.1
              rw [hq, hd2] at h1
              simp at h1
          rw [List.dropWhile_cons, if_neg (by simp [hd]), hc]
          congr 1
          exact ih (d :: t) hQ.2 hA.2
      · rw [if_neg hq]
        congr 1
        exact ih s hQ.2 (noAdjQA_tail hA)

/-- The full collapse is the identity on separator-disciplined strings. -/
theorem collapseQA_id {s : Str} (h : goodSeps s = true) : collapseQA s = s := by
  cases s with
  | nil => rfl
  | cons c s =>
    rw [goodSeps, Bool.and_eq_true, Bool.and_eq_true] at h
    obtain ⟨⟨hamp, hQ⟩, hA⟩ := h
    rw [collapseQA]
    by_cases hq : isQA c = true
    · rw [if_pos hq]
      have hc : c = '?' := by
        have h2 : c = '?' ∨ c = '&' := by simpa [isQA] using hq
        rcases h2 with h | h
        · exact h
        · rw [h] at hamp; simp at hamp
      cases s with
      | nil => rw [hc]; rfl
      | cons d t =>
        rw [noAdjQA, Bool.and_eq_true] at hA
        have hd : isQA d = false := by
          cases hd2 : isQA d
          · rfl
          · have h1 := hA.1
            rw [hq, hd2] at h1
            simp at h1
        rw [List.dropWhile_cons, if_neg (by simp [hd]), hc]
        congr 1
        exact collapseTailF_id _ _ hQ hA.2
    · rw [if_neg hq]
      congr 1
      exact collapseTailF_id _ _ hQ (noAdjQA_tail hA)

theorem hasPathCore_append_left (w : Str) {t : Str} (h : hasPathCore t = true) :
    hasPathCore (w ++ t) = true := by
  induction w with
  | nil => simpa using h
  | cons a wtl ihw =>
    rw [List.cons_append, hasPathCore, Bool.or_eq_true]
    exact Or.inr ihw

theorem hasPathCore_suffix {t s : Str} (hsuf : t <:+ s) (h : hasPathCore t = true) :
    hasPathCore s = true := by
  obtain ⟨w, hw⟩ := hsuf
  rw [← hw]
  exact hasPathCore_append_left w h

/-- The full collapse cannot create a parameter occurrence. -/
theorem hasParam_collapseQA {k : Str} (hk : ∀ a ∈ k ++ ['='], isQA a = false) {s : Str}
    (h : hasParam k (collapseQA s) = true) : hasParam k s = true := by
  cases s with
  | nil => simpa [collapseQA] using h
  | cons c s =>
    rw [collapseQA] at h
    by_cases hq : isQA c = true
    · rw [if_pos hq] at h
      rw [hasParam, Bool.or_eq_true] at h
      rcases h with h | h
      · rw [Bool.and_eq_true] at h
        have hpre := isPrefixOf_collapseTailF _ _ _ hk h.2
        exact hasParam_of_prefix_dropWhile s c hq hpre
      · have h2 := hasParam_collapseTailF hk _ _ h
        rw [hasParam, Bool.or_eq_true]
        exact Or.inr (hasParam_suffix (List.dropWhile_suffix _) h2)
    · rw [if_neg hq] at h
      rw [hasParam, Bool.or_eq_true] at h ⊢
      rcases h with h | h
      · rw [Bool.and_eq_true] at h
        exact absurd h.1 hq
      · exact Or.inr (hasParam_collapseTailF hk _ _ h)

/-- The full collapse cannot create a core path occurrence. -/
theorem hasPathCore_collapseQA {s : Str} (h : hasPathCore (collapseQA s) = true) :
    hasPathCore s = true := by
  cases s with
  | nil => simpa [collapseQA] using h
  | cons c s =>
    rw [collapseQA] at h
    by_cases hq : isQA c = true
    · rw [if_pos hq] at h
      rw [hasPathCore, Bool.or_eq_true] at h
      rcases h with h | h
      · rw [matchPathAt_cons] at h
        simp at h
      · have h2 := hasPathCore_collapseTailF _ _ h
        rw [hasPathCore, Bool.or_eq_true]
        exact Or.inr (hasPathCore_suffix (List.dropWhile_suffix _) h2)
    · rw [if_neg hq] at h
      rw [hasPathCore, Bool.or_eq_true] at h ⊢
      rcases h with h | h
      · rw [matchPathAt_cons] at h ⊢
        by_cases hc : c = '/'
        · rw [if_pos hc] at h ⊢
          exact Or.inl (mcState_collapseTailF _ _ 0 h)
        · rw [if_neg hc] at h
          exact absurd h (by simp)
      · exact Or.inr (hasPathCore_collapseTailF _ _ h)

/-! #### The trailing question mark -/

theorem noQ_mem {t : Str} (h : noQ t = true) {d : Char} (hd : d ∈ t) : ¬ d = '?' := by
  induction t with
  | nil => simp at hd
  | cons a l ih =>
    rw [noQ, Bool.and_eq_true] at h
    rcases List.mem_cons.mp hd with rfl | hd2
    · intro he
      subst he
      simp at h
    · exact ih h.2 hd2

/-- On a separator-disciplined string the trailing-question-mark removal is the
identity, except on the lone string `"?"`. -/
theorem goodSeps_noTrailing {s : Str} (h : goodSeps s = true) :
    dropTrailingQ s = s ∨ (s = ['?'] ∧ dropTrailingQ s = []) := by
  cases s with
  | nil => left; rfl
  | cons c t =>
    cases ht : t.reverse with
    | nil =>
      have ht0 : t = [] := List.reverse_eq_nil_iff.mp ht
      subst ht0
      by_cases hc : c = '?'
      · subst hc
        right
        exact ⟨rfl, rfl⟩
      · left
        unfold dropTrailingQ
        rw [List.reverse_singleton]
        simp [hc]
    | cons d w =>
      have hrev : (c :: t).reverse = d :: (w ++ [c]) := by
        rw [List.reverse_cons, ht]
        rfl
      have hd_mem : d ∈ t := by
        have h1 : d ∈ t.reverse := by rw [ht]; exact List.mem_cons_self d w
        exact List.mem_reverse.mp h1
      have hQt : noQ t = true := by
        rw [goodSeps, Bool.and_eq_true, Bool.and_eq_true] at h
        exact h.1.2
      have hdq : ¬ d = '?' := noQ_mem hQt hd_mem
      left
      unfold dropTrailingQ
      rw [hrev]
      simp [hdq]

theorem goodSeps_dropTrailingQ {s : Str} (h : goodSeps s = true) :
    goodSeps (dropTrailingQ s) = true := by
  rcases goodSeps_noTrailing h with he | ⟨_, he⟩
  · rw [he]; exact h
  · rw [he]; rfl

theorem dropTrailingQ_idem {s : Str} (h : goodSeps s = true) :
    dropTrailingQ (dropTrailingQ s) = dropTrailingQ s := by
  rcases goodSeps_noTrailing h with he | ⟨_, he⟩
  · rw [he, he]
  · rw [he]; rfl

/-- The trailing-question-mark removal only ever removes a suffix. -/
theorem dropTrailingQ_prefix (s : Str) : ∃ u : Str, s = dropTrailingQ s ++ u := by
  unfold dropTrailingQ
  cases hr : s.reverse with
  | nil => exact ⟨[], by simp⟩
  | cons c t =>
    by_cases hc : c = '?'
    · subst hc
      refine ⟨['?'], ?_⟩
      have hs : s = t.reverse ++ ['?'] := by
        have h1 : s.reverse.reverse = s := List.reverse_reverse s
        rw [hr] at h1
        rw [← h1, List.reverse_cons]
      simp only [List.reverse_cons] at hs ⊢
      simpa using hs
    · refine ⟨[], ?_⟩
      simp [hc]

theorem hasParam_dropTrailingQ {k s : Str} (h : hasParam k s = false) :
    hasParam k (dropTrailingQ s) = false := by
  cases hp : hasParam k (dropTrailingQ s)
  · rfl
  · exfalso
    obtain ⟨u, hu⟩ := dropTrailingQ_prefix s
    have h2 := hasParam_append_right u hp
    rw [← hu] at h2
    rw [h] at h2
    exact Bool.noConfusion h2

theorem matchPathAt_append {x : Str} (u : Str) (h : matchPathAt x = true) :
    matchPathAt (x ++ u) = true := by
  cases x with
  | nil => simp [matchPathAt] at h
  | cons c t =>
    rw [matchPathAt_cons] at h
    by_cases hc : c = '/'
    · rw [if_pos hc] at h
      obtain ⟨r, hr⟩ := Option.isSome_iff_exists.mp h
      rw [List.cons_append, matchPathAt_cons, if_pos hc]
      have hmu : mcState 0 (t ++ u) = some (r ++ u) := mcState_append t 0 hr
      rw [show sFam (t ++ u) = mcState 0 (t ++ u) from rfl, hmu]
      rfl
    · rw [if_neg hc] at h
      exact absurd h (by simp)

theorem hasPathCore_append_right {t : Str} (u : Str) (h : hasPathCore t = true) :
    hasPathCore (t ++ u) = true := by
  induction t with
  | nil => simp [hasPathCore] at h
  | cons a l ih =>
    rw [hasPathCore, Bool.or_eq_true] at h
    rw [List.cons_append, hasPathCore, Bool.or_eq_true]
    rcases h with h | h
    · left
      rw [show a :: (l ++ u) = (a :: l) ++ u from rfl]
      exact matchPathAt_append u h
    · right
      exact ih h

theorem hasPathCore_dropTrailingQ {s : Str} (h : hasPathCore s = false) :
    hasPathCore (dropTrailingQ s) = false := by
  cases hp : hasPathCore (dropTrailingQ s)
  · rfl
  · exfalso
    obtain ⟨u, hu⟩ := dropTrailingQ_prefix s
    have h2 := hasPathCore_append_right u hp
    rw [← hu] at h2
    rw [h] at h2
    exact Bool.noConfusion h2

/-! #### Assembly: idempotence of the full stripping chain -/

theorem paramKeys_qaFree : ∀ k ∈ paramKeys, ∀ a ∈ k ++ ['='], isQA a = false := by
  decide

theorem removeParams_pres {k : Str} (hk : ∀ a ∈ k ++ ['='], isQA a = false) :
    ∀ (ks : List Str) (s : Str), hasParam k s = false →
      hasParam k (ks.foldl (fun acc kk => removeParam kk acc) s) = false := by
  intro ks
  induction ks with
  | nil => intro s h; exact h
  | cons k0 ks ih =>
    intro s h
    rw [List.foldl_cons]
    apply ih
    cases hp : hasParam k (removeParam k0 s)
    · rfl
    · exfalso
      have h2 := hasParam_removeParamF hk s.length s hp
      rw [h] at h2
      exact Bool.noConfusion h2

theorem removeParams_clean_all : ∀ (ks : List Str) (s : Str),
    (∀ k ∈ ks, ∀ a ∈ k ++ ['='], isQA a = false) →
    ∀ k ∈ ks, hasParam k (ks.foldl (fun acc kk => removeParam kk acc) s) = false := by
  intro ks
  induction ks with
  | nil => intro s _ k hk; simp at hk
  | cons k0 ks ih =>
    intro s hqa k hk
    rw [List.foldl_cons]
    rcases List.mem_cons.mp hk with rfl | hk2
    · apply removeParams_pres (hqa _ (by simp)) ks
      exact hasParam_removeParamF_self (hqa _ (by simp)) s.length s (le_refl _)
    · exact ih (removeParam k0 s) (fun q hq => hqa q (by simp [hq])) k hk2

/-- After the parameter-removal fold no stripped key occurs any more. -/
theorem removeParams_clean (s : Str) :
    ∀ k ∈ paramKeys, hasParam k (removeParams s) = false := by
  intro k hk
  exact removeParams_clean_all paramKeys s paramKeys_qaFree k hk

/-- The parameter-removal fold is the identity when no stripped key occurs. -/
theorem removeParams_id {s : Str} (h : ∀ k ∈ paramKeys, hasParam k s = false) :
    removeParams s = s := by
  have main : ∀ (ks : List Str) (s : Str), (∀ k ∈ ks, hasParam k s = false) →
      ks.foldl (fun acc kk => removeParam kk acc) s = s := by
    intro ks
    induction ks with
    | nil => intro s _; rfl
    | cons k0 ks ih =>
      intro s h2
      rw [List.foldl_cons]
      rw [show removeParam k0 s = s from removeParamF_id k0 s.length (h2 k0 (by simp))]
      exact ih s (fun k hk => h2 k (by simp [hk]))
  exact main paramKeys s h

/-- C3: size-constraint stripping is idempotent — for every URL `u`,
`stripSizeConstraints (stripSizeConstraints u) = stripSizeConstraints u`,
where `stripSizeConstraints` removes the fixed set of CDN query parameters and
the width-by-height path-segment pattern and then normalizes the duplicate
`?`/`&` separators (server.js:234-248). -/
theorem stripSizeConstraints_idempotent (u : Str) :
    stripSizeConstraints (stripSizeConstraints u) = stripSizeConstraints u := by
  have hP1 : ∀ k ∈ paramKeys, hasParam k (removeParams u) = false := removeParams_clean u
  have hP2 : ∀ k ∈ paramKeys, hasParam k (removePath (removeParams u)) = false := by
    intro k hk
    cases hp : hasParam k (removePath (removeParams u))
    · rfl
    · exfalso
      have h2 := hasParam_removePathF (paramKeys_qaFree k hk) (removeParams u).length
        (removeParams u) hp
      rw [hP1 k hk] at h2
      exact Bool.noConfusion h2
  have hC2 : hasPathCore (removePath (removeParams u)) = false :=
    hasPathCore_removePathF (removeParams u).length (removeParams u) (le_refl _)
  have hP3 : ∀ k ∈ paramKeys,
      hasParam k (collapseQA (removePath (removeParams u))) = false := by
    intro k hk
    cases hp : hasParam k (collapseQA (removePath (removeParams u)))
    · rfl
    · exfalso
      have h2 := hasParam_collapseQA (paramKeys_qaFree k hk) hp
      rw [hP2 k hk] at h2
      exact Bool.noConfusion h2
  have hC3 : hasPathCore (collapseQA (removePath (removeParams u))) = false := by
    cases hp : hasPathCore (collapseQA (removePath (removeParams u)))
    · rfl
    · exfalso
      have h2 := hasPathCore_collapseQA hp
      rw [hC2] at h2
      exact Bool.noConfusion h2
  have hG3 : goodSeps (collapseQA (removePath (removeParams u))) = true :=
    goodSeps_collapseQA _
  have hP4 : ∀ k ∈ paramKeys, hasParam k (stripSizeConstraints u) = false :=
    fun k hk => hasParam_dropTrailingQ (hP3 k hk)
  have hC4 : hasPathCore (stripSizeConstraints u) = false :=
    hasPathCore_dropTrailingQ hC3
  have hG4 : goodSeps (stripSizeConstraints u) = true :=
    goodSeps_dropTrailingQ hG3
  show dropTrailingQ (collapseQA (removePath (removeParams (stripSizeConstraints u)))) =
    stripSizeConstraints u
  rw [removeParams_id hP4]
  rw [show removePath (stripSizeConstraints u) =
      removePathF (stripSizeConstraints u).length (stripSizeConstraints u) from rfl]
  rw [removePathF_id _ hC4]
  rw [collapseQA_id hG4]
  exact dropTrailingQ_idem hG3

end PureContent
